import Mathlib

/-!
Verification development for the `checker.py` assertion engine (tools/checker.py).

The engine parses "check lines" (assertions embedded as comments of a test
file) and matches them against named groups of an output transcript.  This
file gives a shallow embedding of the data model and the matching algorithm:

* Python strings are embedded as `List Char`; all transcript and check lines
  are single lines (the surrounding parsers split on newlines), so no list
  ever contains `'\n'` in practice.
* Python's `re` engine is embedded as a small regex AST (`Regex`) with an
  executable backtracking semantics `Regex.ends` that lists candidate match
  lengths in Python's backtracking preference order (greedy quantifiers, left
  alternative first, a repetition never iterates on an empty match).  The
  checker script stores patterns as strings and hands them to `re`; here a
  pattern is stored as the compiled `Regex` value.  `re.match` is
  `Regex.matchEnd` (first candidate in preference order) and `re.search` is
  `Regex.searchStart` (leftmost position admitting a match).  Character
  classes are modelled over ASCII (the transcripts the tool consumes are
  ASCII).
* Python exceptions are embedded as `Except Err`; an uncaught `TypeError`
  (for example subscripting or copying `None`) is the constructor
  `Err.noneTypeError`.
* The one unbounded loop of the script, the retry loop of `CheckLine.match`,
  is embedded with explicit fuel (`matchLoop`); the wrapper `CheckLine.match`
  runs it with fuel `outputLine.length + 2`, which is proved sufficient
  whenever the first element's pattern cannot match the empty string, and the
  fuel marker `Err.divergence` records that the Python loop does not
  terminate.
-/

namespace Checker

/-- ASCII whitespace, the characters matched by Python's `\s` on ASCII text
(and stripped by `str.strip`). -/
def isSpaceChar (c : Char) : Bool :=
  c = ' ' ∨ c = '\t' ∨ c = '\n' ∨ c = '\r' ∨ c = '\x0b' ∨ c = '\x0c'

/-- The characters matched by the regex class `[0-9]`. -/
def isDigitChar (c : Char) : Bool :=
  '0' ≤ c ∧ c ≤ '9'

/-- The characters matched by the regex class `[a-zA-Z]` (variable-name head). -/
def isAlphaChar (c : Char) : Bool :=
  ('a' ≤ c ∧ c ≤ 'z') ∨ ('A' ≤ c ∧ c ≤ 'Z')

/-- The characters matched by the regex class `[a-zA-Z0-9]` (variable-name tail). -/
def isAlnumChar (c : Char) : Bool :=
  isAlphaChar c ∨ isDigitChar c

/-- Python `str.strip()`: drop leading and trailing whitespace. -/
def stripChars (l : List Char) : List Char :=
  ((l.dropWhile isSpaceChar).reverse.dropWhile isSpaceChar).reverse

/-- Index of the first occurrence of the two adjacent characters `a`, `b`
in a list (the search `re.search("ab", s)` for two literal characters). -/
def find2 (a b : Char) : List Char → Option Nat
  | [] => none
  | [_] => none
  | x :: y :: t =>
      if x = a ∧ y = b then some 0
      else (find2 a b (y :: t)).map (· + 1)

/-- Python slice `l[a:b]`. -/
def slice (l : List Char) (a b : Nat) : List Char :=
  (l.drop a).take (b - a)

/-! ## Variable state

The Python dict mapping variable names to the captured text; insertion order
is preserved and a name is bound at most once (redefinition raises before
any overwrite), so an association list with first-match lookup is a faithful
embedding. -/

/-- The variable table of one `CheckGroup.match` run. -/
abbrev VarState := List (String × List Char)

/-- Dict lookup `varState[name]` (first binding wins). -/
def lookupVar : VarState → String → Option (List Char)
  | [], _ => none
  | (n, v) :: rest, name => if n = name then some v else lookupVar rest name

/-- Dict membership `name in varState`. -/
def containsVar (vs : VarState) (name : String) : Bool :=
  (lookupVar vs name).isSome

/-- Dict update `varState[name] = value` for a name not yet bound. -/
def insertVar (vs : VarState) (name : String) (value : List Char) : VarState :=
  vs ++ [(name, value)]

/-! ## The regex engine

The injected-capability embedding of Python `re` restricted to the constructs
the checker itself generates (escaped literals, `\s+`) and the pattern bodies
exercised in this development (literals, classes, `+`, `*`, `?`, `.`). -/

/-- Regex AST. `cls p` is a single-character class; `star` is greedy `*`. -/
inductive Regex where
  | fail
  | eps
  | lit (c : Char)
  | cls (p : Char → Bool)
  | seq (r₁ r₂ : Regex)
  | alt (r₁ r₂ : Regex)
  | star (r₁ : Regex)

/-- Candidate lengths of a greedy `r*` at the head of `s`, in backtracking
order, computed with fuel: every iteration must consume at least one
character (Python stops a repetition on an empty match), so fuel
`s.length` is exact and larger fuel does not change the result. -/
def starEnds (f : List Char → List Nat) : Nat → List Char → List Nat
  | 0, _ => [0]
  | k + 1, s =>
      ((f s).flatMap fun n₁ =>
        if 0 < n₁ ∧ n₁ ≤ s.length then
          (starEnds f k (s.drop n₁)).map fun n₂ => n₁ + n₂
        else []) ++ [0]

/-- All prefix lengths of `s` that `r` can match, in Python's backtracking
preference order (greedy quantifiers first, left alternative first). -/
def Regex.ends : Regex → List Char → List Nat
  | .fail, _ => []
  | .eps, _ => [0]
  | .lit _, [] => []
  | .lit c, x :: _ => if x = c then [1] else []
  | .cls _, [] => []
  | .cls p, x :: _ => if p x then [1] else []
  | .seq r₁ r₂, s =>
      (Regex.ends r₁ s).flatMap fun n₁ =>
        (Regex.ends r₂ (s.drop n₁)).map fun n₂ => n₁ + n₂
  | .alt r₁ r₂, s => Regex.ends r₁ s ++ Regex.ends r₂ s
  | .star r₁, s => starEnds (Regex.ends r₁) s.length s

/-- `re.match(r, s)`: length of the prefix the backtracking engine settles
on, `none` when no prefix of `s` matches `r`. -/
def Regex.matchEnd (r : Regex) (s : List Char) : Option Nat :=
  (r.ends s).head?

/-- `re.search(r, s).start()`: leftmost position of `s` at which `r`
matches, `none` when there is none. -/
def Regex.searchStart (r : Regex) : List Char → Option Nat
  | [] => if (r.ends []).isEmpty then none else some 0
  | c :: t =>
      if (r.ends (c :: t)).isEmpty then (Regex.searchStart r t).map (· + 1)
      else some 0

/-- The regex `re.escape(v)` compiles to: the exact literal `v`. -/
def Regex.ofLiteral : List Char → Regex
  | [] => .eps
  | c :: cs => .seq (.lit c) (Regex.ofLiteral cs)

/-- Greedy `r+`, as compiled from a `+` quantifier: `r` then `r*`. -/
def Regex.plusOf (r : Regex) : Regex :=
  .seq r (.star r)

/-! ## Compiling regex source text

The checker stores the body of a `{{...}}` or `[[name:...]]` span as a raw
regex string and hands it to `re`.  `compileRegex` maps such a body to the
`Regex` AST for the subset of Python regex syntax exercised here (literals,
`\`-escapes, character classes with ranges, `+`, `*`, `?`, `.`).  A body
outside the subset compiles to `none`; `compileRegexD` then yields
`Regex.fail`, and no theorem below evaluates such a body. -/

/-- A `\c` escape outside a class: `\s`/`\d`/`\w` classes, an escaped
non-alphanumeric character is that literal character. -/
def escAtom : Char → Option Regex
  | 's' => some (.cls isSpaceChar)
  | 'd' => some (.cls isDigitChar)
  | 'w' => some (.cls fun c => isAlnumChar c ∨ c = '_')
  | c => if c.isAlphanum then none else some (.lit c)

/-- A `\c` escape inside a class body. -/
def escClassPred : Char → Option (Char → Bool)
  | 's' => some isSpaceChar
  | 'd' => some isDigitChar
  | 'w' => some fun c => isAlnumChar c ∨ c = '_'
  | c => if c.isAlphanum then none else some fun x => x = c

/-- Predicate of a (non-negated) class body: characters, ranges, escapes. -/
def classPred : List Char → Option (Char → Bool)
  | [] => some fun _ => false
  | '\\' :: c :: rest => do
      let p ← escClassPred c
      let q ← classPred rest
      some fun x => p x ∨ q x
  | a :: '-' :: b :: rest =>
      if b = '\\' then none
      else do
        let q ← classPred rest
        some fun x => (a ≤ x ∧ x ≤ b) ∨ q x
  | a :: rest => do
      let q ← classPred rest
      some fun x => x = a ∨ q x

/-- One step per consumed token; the accumulator holds the atoms parsed so
far in reverse, so a postfix quantifier applies to its head.  Quantifier
tokens consume at least one character, so fuel `src.length` is sufficient. -/
def compileGo : Nat → List Char → List Regex → Option (List Regex)
  | _, [], acc => some acc
  | 0, _ :: _, _ => none
  | fuel + 1, src, acc =>
      match src with
      | [] => some acc
      | '+' :: '?' :: _ => none
      | '*' :: '?' :: _ => none
      | '?' :: '?' :: _ => none
      | '+' :: rest =>
          match acc with
          | [] => none
          | r :: rs => compileGo fuel rest (Regex.plusOf r :: rs)
      | '*' :: rest =>
          match acc with
          | [] => none
          | r :: rs => compileGo fuel rest (.star r :: rs)
      | '?' :: rest =>
          match acc with
          | [] => none
          | r :: rs => compileGo fuel rest (.alt r .eps :: rs)
      | ['\\'] => none
      | '\\' :: c :: rest =>
          match escAtom c with
          | none => none
          | some a => compileGo fuel rest (a :: acc)
      | '[' :: rest =>
          match rest.findIdx? (fun c => c = ']') with
          | none => none
          | some i =>
              match classPred (rest.take i) with
              | none => none
              | some p => compileGo fuel (rest.drop (i + 1)) (.cls p :: acc)
      | '.' :: rest => compileGo fuel rest (.cls (fun c => ¬ c = '\n') :: acc)
      | c :: rest =>
          if c = '(' ∨ c = ')' ∨ c = '|' ∨ c = '{' ∨ c = '}' ∨ c = '^' ∨ c = '$' ∨ c = ']'
          then none
          else compileGo fuel rest (.lit c :: acc)

/-- Concatenation of a list of atoms. -/
def seqAll : List Regex → Regex
  | [] => .eps
  | [r] => r
  | r :: rs => .seq r (seqAll rs)

/-- Compile a regex body to the AST (`none` outside the modelled subset). -/
def compileRegex (src : List Char) : Option Regex :=
  (compileGo src.length src []).map fun acc => seqAll acc.reverse

/-- Total version; outside the subset the pattern matches nothing. -/
def compileRegexD (src : List Char) : Regex :=
  (compileRegex src).getD .fail

/-! ## CheckElement

`CheckElement` in the script is a `(variant, name, pattern)` record with
variants `Text`, `Pattern`, `VarRef`, `VarDef`; fields that would be `None`
are simply absent from the corresponding constructor.  A stored pattern
string appears here as its compiled `Regex`: `parseText` stores
`re.escape(text)` (the exact literal), `parsePattern` / `parseVariable`
store the compiled span body. -/

/-- One element of a check line. -/
inductive CheckElement where
  | text (r : Regex)
  | pattern (r : Regex)
  | varRef (name : String)
  | varDef (name : String) (r : Regex)

/-- `CheckElement.parseText`: a literal, stored escaped. -/
def parseTextElem (text : List Char) : CheckElement :=
  .text (Regex.ofLiteral text)

/-- `CheckElement.parsePattern`: strip the `{{` `}}` brackets, keep the body. -/
def parsePatternElem (patternElem : List Char) : CheckElement :=
  .pattern (compileRegexD ((patternElem.take (patternElem.length - 2)).drop 2))

/-- `CheckElement.parseVariable`: split at the first `:` into a reference
`[[name]]` or a definition `[[name:body]]`. -/
def parseVariableElem (varElem : List Char) : CheckElement :=
  match varElem.findIdx? (fun c => c = ':') with
  | none => .varRef (String.mk ((varElem.take (varElem.length - 2)).drop 2))
  | some colonPos =>
      .varDef (String.mk ((varElem.take colonPos).drop 2))
        (compileRegexD ((varElem.take (varElem.length - 2)).drop (colonPos + 1)))

/-- Is the element a variable definition? -/
def isVarDefElem : CheckElement → Bool
  | .varDef _ _ => true
  | _ => false

/-- The whitespace element `CheckElement.parsePattern("{{\s+}}")`. -/
def wsRegex : Regex :=
  compileRegexD ['\\', 's', '+']

/-! ## The three searches of `CheckLine.__parse`

`re.search` of `\s+`, of `\{\{.+?\}\}` and of
`\[\[[a-zA-Z][a-zA-Z0-9]*(:.+?)?\]\]`, each returning `(start, end)` of the
leftmost match.  `.+?` is lazy, so a bracketed span ends at the first
closing marker at least one character after the opening; the quantifier
`(...)?` is greedy, so a definition body is preferred over closing right
after the name.  (Bodies never contain a newline: all input is split into
lines first.) -/

/-- Leftmost maximal whitespace run. -/
def wsSearch (line : List Char) : Option (Nat × Nat) :=
  match line.findIdx? isSpaceChar with
  | none => none
  | some i => some (i, i + ((line.drop i).takeWhile isSpaceChar).length)

/-- End of a `{{.+?}}` match starting exactly here, if any. -/
def patternHere : List Char → Option Nat
  | '{' :: '{' :: rest₂ =>
      match find2 '}' '}' (rest₂.drop 1) with
      | some j => some (j + 5)
      | none => none
  | _ => none

/-- Leftmost `{{.+?}}` span. -/
def patternSearch : List Char → Option (Nat × Nat)
  | [] => none
  | x :: t =>
      match patternHere (x :: t) with
      | some e => some (0, e)
      | none => (patternSearch t).map fun p => (p.1 + 1, p.2 + 1)

/-- End of a variable span starting exactly here, if any. -/
def varHere : List Char → Option Nat
  | '[' :: '[' :: rest₂ =>
      match rest₂ with
      | [] => none
      | c :: cs =>
          if isAlphaChar c then
            let nameTail := cs.takeWhile isAlnumChar
            let p := 2 + 1 + nameTail.length
            match cs.drop nameTail.length with
            | ':' :: bodyRest =>
                match find2 ']' ']' (bodyRest.drop 1) with
                | some j => some (p + 1 + (j + 1) + 2)
                | none => none
            | ']' :: ']' :: _ => some (p + 2)
            | _ => none
          else none
  | _ => none

/-- Leftmost variable span. -/
def varSearch : List Char → Option (Nat × Nat)
  | [] => none
  | x :: t =>
      match varHere (x :: t) with
      | some e => some (0, e)
      | none => (varSearch t).map fun p => (p.1 + 1, p.2 + 1)

/-- `CheckLine.__isMatchAtStart`. -/
def isMatchAtStart : Option (Nat × Nat) → Bool
  | some (st, _) => st = 0
  | none => false

/-- End position of an optional match (only consulted when it exists). -/
def endOf : Option (Nat × Nat) → Nat
  | some (_, e) => e
  | none => 0

/-- Minimum of a list of naturals (`min` of Python, on a nonempty list). -/
def listMinN : List Nat → Nat
  | [] => 0
  | x :: xs => xs.foldl Nat.min x

/-- Maximum of a list of naturals (`max` of Python, on a nonempty list). -/
def listMaxN : List Nat → Nat
  | [] => 0
  | x :: xs => xs.foldl Nat.max x

/-- `CheckLine.__firstMatch`: minimal start among the searches, with a
missing match counting as the length of the searched string. -/
def firstMatchPos (ms : List (Option (Nat × Nat))) (line : List Char) : Nat :=
  listMinN (ms.map fun m =>
    match m with
    | none => line.length
    | some (st, _) => st)

/-! ## CheckLine -/

/-- `CheckLine.Variant`. -/
inductive Variant where
  | InOrder
  | DAG
  | Not
  deriving DecidableEq, Repr

/-- All error exits of the script (every `raise`, plus the two `TypeError`
crash sites reached through a `None` value, plus the fuel marker
`divergence` standing for a non-terminating loop). -/
inductive Err where
  | emptyCheckLine
  | notLineDefinesVariable
  | undefinedVariable (name : String)
  | redefinedVariable (name : String)
  | couldNotMatchLine
  | notLineMatchedOutput
  | noneTypeError
  | lineOutsideGroup
  | groupNameMissing
  | groupBodyMissing
  | groupNotFound (name : String)
  | divergence
  deriving DecidableEq, Repr

instance {ε α : Type} [DecidableEq ε] [DecidableEq α] : DecidableEq (Except ε α) :=
  fun a b =>
    match a, b with
    | .error e₁, .error e₂ =>
        if h : e₁ = e₂ then .isTrue (by rw [h])
        else .isFalse (fun hc => by cases hc; exact h rfl)
    | .error _, .ok _ => .isFalse (fun hc => Except.noConfusion hc)
    | .ok _, .error _ => .isFalse (fun hc => Except.noConfusion hc)
    | .ok a₁, .ok a₂ =>
        if h : a₁ = a₂ then .isTrue (by rw [h])
        else .isFalse (fun hc => by cases hc; exact h rfl)

/-- A parsed check line: its variant and its elements. -/
structure CheckLine where
  variant : Variant
  lineParts : List CheckElement

/-- `CheckLine.__parse`: repeatedly consume, at the current position, a
whitespace run, a `{{...}}` span, a `[[...]]` span, or the plain text up to
the earliest of those.  Every step consumes at least one character, so fuel
`line.length` is sufficient and the `divergence` exit is unreachable. -/
def parseLineF (v : Variant) : Nat → List Char → Except Err (List CheckElement)
  | _, [] => .ok []
  | 0, _ :: _ => .error .divergence
  | fuel + 1, c :: cs =>
      let line := c :: cs
      let mW := wsSearch line
      let mP := patternSearch line
      let mV := varSearch line
      if isMatchAtStart mW then
        match parseLineF v fuel (line.drop (endOf mW)) with
        | .error e => .error e
        | .ok ps => .ok (CheckElement.pattern wsRegex :: ps)
      else if isMatchAtStart mP then
        match parseLineF v fuel (line.drop (endOf mP)) with
        | .error e => .error e
        | .ok ps => .ok (parsePatternElem (line.take (endOf mP)) :: ps)
      else if isMatchAtStart mV then
        let elem := parseVariableElem (line.take (endOf mV))
        if v = .Not ∧ isVarDefElem elem then .error .notLineDefinesVariable
        else
          match parseLineF v fuel (line.drop (endOf mV)) with
          | .error e => .error e
          | .ok ps => .ok (elem :: ps)
      else
        let fm := firstMatchPos [mW, mP, mV] line
        match parseLineF v fuel (line.drop fm) with
        | .error e => .error e
        | .ok ps => .ok (parseTextElem (line.take fm) :: ps)

/-- `CheckLine.__init__`: strip the content, parse it, and reject an empty
line. -/
def checkLineOf (content : List Char) (variant : Variant) : Except Err CheckLine :=
  let stripped := stripChars content
  match parseLineF variant stripped.length stripped with
  | .error e => .error e
  | .ok parts =>
      if parts.isEmpty then .error .emptyCheckLine
      else .ok ⟨variant, parts⟩

/-! ## CheckLine matching -/

/-- `CheckLine.__generatePattern`: a variable reference becomes the escaped
literal of its current value (raising on an unbound name); every other
element contributes its stored pattern. -/
def generatePattern (linePart : CheckElement) (varState : VarState) : Except Err Regex :=
  match linePart with
  | .varRef name =>
      match lookupVar varState name with
      | some v => .ok (Regex.ofLiteral v)
      | none => .error (.undefinedVariable name)
  | .text r => .ok r
  | .pattern r => .ok r
  | .varDef _ r => .ok r

/-- `__generatePattern(linePart, None)`: subscripting `None` raises a
`TypeError`; other elements still return their stored pattern. -/
def generatePatternNone (linePart : CheckElement) : Except Err Regex :=
  match linePart with
  | .varRef _ => .error .noneTypeError
  | .text r => .ok r
  | .pattern r => .ok r
  | .varDef _ r => .ok r

/-- The inner `for part in self.lineParts` loop of `CheckLine.match`: each
element must match where the previous one ended; a `VarDef` binds the
consumed slice (raising on redefinition); a failed element reports a
partial match (`ok none`). -/
def matchParts : List CheckElement → List Char → Nat → VarState → Except Err (Option VarState)
  | [], _, _, varState => .ok (some varState)
  | part :: rest, outputLine, matchStart, varState =>
      match generatePattern part varState with
      | .error e => .error e
      | .ok patt =>
          match patt.matchEnd (outputLine.drop matchStart) with
          | none => .ok none
          | some e =>
              let matchEnd := matchStart + e
              match part with
              | .varDef name _ =>
                  if containsVar varState name then .error (.redefinedVariable name)
                  else matchParts rest outputLine matchEnd
                    (insertVar varState name (slice outputLine matchStart matchEnd))
              | _ => matchParts rest outputLine matchEnd varState

/-- The `while True` retry loop of `CheckLine.match`, with explicit fuel:
search for the first element from `initialSearchFrom`; no occurrence means
no match; otherwise attempt the whole chain there and on failure resume one
character past the attempt's start.  `none` is the fuel running out, which
mirrors the Python loop not terminating. -/
def matchLoop (parts : List CheckElement) (initialPattern : Regex) (outputLine : List Char)
    (initialVarState : VarState) : Nat → Nat → Option (Except Err (Option VarState))
  | _, 0 => none
  | initialSearchFrom, fuel + 1 =>
      match initialPattern.searchStart (outputLine.drop initialSearchFrom) with
      | none => some (.ok none)
      | some st =>
          let matchStart := initialSearchFrom + st
          match matchParts parts outputLine matchStart initialVarState with
          | .error e => some (.error e)
          | .ok (some vs) => some (.ok (some vs))
          | .ok none =>
              matchLoop parts initialPattern outputLine initialVarState (matchStart + 1) fuel

/-- `CheckLine.match` with explicit fuel for the retry loop. -/
def CheckLine.matchF (self : CheckLine) (outputLine : List Char) (initialVarState : VarState)
    (fuel : Nat) : Option (Except Err (Option VarState)) :=
  match self.lineParts with
  | [] => some (.error .emptyCheckLine)
  | part₀ :: _ =>
      match generatePattern part₀ initialVarState with
      | .error e => some (.error e)
      | .ok initialPattern =>
          matchLoop self.lineParts initialPattern outputLine initialVarState 0 fuel

/-- `CheckLine.match(outputLine, initialVarState)`.  Fuel
`outputLine.length + 2` is sufficient whenever the first element's pattern
cannot match the empty string (each retry starts at least one character
further); when it can, the Python loop may never exit and the fuel marker
`divergence` records that. -/
def CheckLine.match (self : CheckLine) (outputLine : List Char) (initialVarState : VarState) :
    Except Err (Option VarState) :=
  match self.matchF outputLine initialVarState (outputLine.length + 2) with
  | some r => r
  | none => .error .divergence

/-- `checkLine.match(outputLine, varState)` where the caller may hand in
`None` for the table (as `__matchNotLines` does after a negative line finds
no match): generating the first pattern from `None` raises a `TypeError`
for a variable reference, a failed search still returns no-match, and a
successful search crashes in `dict(None)`. -/
def CheckLine.matchOpt (self : CheckLine) (outputLine : List Char) (vs : Option VarState) :
    Except Err (Option VarState) :=
  match vs with
  | some v => self.match outputLine v
  | none =>
      match self.lineParts with
      | [] => .error .emptyCheckLine
      | part₀ :: _ =>
          match generatePatternNone part₀ with
          | .error e => .error e
          | .ok p =>
              match p.searchStart outputLine with
              | none => .ok none
              | some _ => .error .noneTypeError

/-! ## CheckGroup matching -/

/-- A named collection of check lines. -/
structure CheckGroup where
  name : String
  lines : List CheckLine

/-- A named part of the test output (`OutputGroup` in the script). -/
structure OutputGroup where
  name : String
  body : List (List Char)

/-- `CheckGroup.__splitByVariant`: longest prefix of the given variant,
and the rest. -/
def splitByVariant : List CheckLine → Variant → List CheckLine × List CheckLine
  | [], _ => ([], [])
  | l :: ls, v =>
      if l.variant = v then
        let (a, b) := splitByVariant ls v
        (l :: a, b)
      else ([], l :: ls)

/-- `CheckGroup.__nextIndependentChecks`: the leading `Not` lines, then one
independent span (a single `InOrder` line, or a maximal run of `DAG`
lines), then the remaining lines. -/
def nextIndependentChecks (checkLines : List CheckLine) :
    List CheckLine × List CheckLine × List CheckLine :=
  match splitByVariant checkLines .Not with
  | (notChecks, []) => (notChecks, [], [])
  | (notChecks, head :: tail) =>
      if head.variant = .InOrder then (notChecks, [head], tail)
      else
        match splitByVariant (head :: tail) .DAG with
        | (independentChecks, rest) => (notChecks, independentChecks, rest)

/-- The loop of `CheckGroup.__findFirstMatch` with the running (1-based)
line number. -/
def findFirstMatchFrom (checkLine : CheckLine) (lineFilter : List Nat)
    (varState : Option VarState) :
    List (List Char) → Nat → Except Err (Option (Nat × VarState))
  | [], _ => .ok none
  | outputLine :: rest, matchLineNo =>
      let n := matchLineNo + 1
      if lineFilter.contains n then findFirstMatchFrom checkLine lineFilter varState rest n
      else
        match checkLine.matchOpt outputLine varState with
        | .error e => .error e
        | .ok none => findFirstMatchFrom checkLine lineFilter varState rest n
        | .ok (some newVarState) => .ok (some (n, newVarState))

/-- `CheckGroup.__findFirstMatch`: the first output line (1-based, skipping
the numbers in `lineFilter`) the check line matches, together with the
updated table; the script's `(-1, None)` return is `ok none`. -/
def findFirstMatch (checkLine : CheckLine) (outputLines : List (List Char))
    (lineFilter : List Nat) (varState : Option VarState) :
    Except Err (Option (Nat × VarState)) :=
  findFirstMatchFrom checkLine lineFilter varState outputLines 0

/-- The loop of `CheckGroup.__matchIndependentChecks`, accumulating the
matched line numbers; an unmatched line raises `Could not match line`. -/
def matchIndependentGo : List CheckLine → List (List Char) → VarState → List Nat →
    Except Err (List Nat × VarState)
  | [], _, varState, matchedLines => .ok (matchedLines, varState)
  | checkLine :: rest, outputLines, varState, matchedLines =>
      match findFirstMatch checkLine outputLines matchedLines (some varState) with
      | .error e => .error e
      | .ok none => .error .couldNotMatchLine
      | .ok (some (matchLineNo, varState')) =>
          matchIndependentGo rest outputLines varState' (matchedLines ++ [matchLineNo])

/-- `CheckGroup.__matchIndependentChecks`: match every line of the span
against the first unused output line; return the output lines strictly
before the earliest match (for the preceding negative span), the output
lines strictly after the latest match (the next window), and the new
table.  With no check lines the source returns
`(outputLines, varState, [])`; the caller reads that tuple as
`(notOutput, remaining, newVarState)` and only reaches this case when no
check lines remain, so the second component is never used again (the
second and third components here are the empty list, as the third is in
the source). -/
def matchIndependentChecks (checkLines : List CheckLine) (outputLines : List (List Char))
    (varState : VarState) : Except Err (List (List Char) × List (List Char) × VarState) :=
  if checkLines.isEmpty then
    .ok (outputLines, [], [])
  else
    match matchIndependentGo checkLines outputLines varState [] with
    | .error e => .error e
    | .ok (matchedLines, varState') =>
        .ok (outputLines.take (listMinN matchedLines - 1),
             outputLines.drop (listMaxN matchedLines), varState')

/-- `CheckGroup.__matchNotLines`: no negative line may match any line of
the window.  The source reassigns `varState` to the second component of
`__findFirstMatch`'s return, so after a negative line matches nothing the
table is `None` for every subsequent line of the span. -/
def matchNotLines : List CheckLine → List (List Char) → Option VarState → Except Err Unit
  | [], _, _ => .ok ()
  | checkLine :: rest, outputLines, varState =>
      match findFirstMatch checkLine outputLines [] varState with
      | .error e => .error e
      | .ok (some _) => .error .notLineMatchedOutput
      | .ok none => matchNotLines rest outputLines none

/-- The `while checkLines` loop of `CheckGroup.match`, with explicit fuel.
Every iteration consumes at least one check line, so fuel
`checkLines.length` is sufficient (`matchGoF_fuel`) and the `divergence`
exit is unreachable. -/
def matchGoF : Nat → List CheckLine → List (List Char) → VarState → Except Err Unit
  | _, [], _, _ => .ok ()
  | 0, _ :: _, _, _ => .error .divergence
  | fuel + 1, checkLine :: rest, outputLines, varState =>
      let nic := nextIndependentChecks (checkLine :: rest)
      match matchIndependentChecks nic.2.1 outputLines varState with
      | .error e => .error e
      | .ok (notOutput, remaining, newVarState) =>
          match matchNotLines nic.1 notOutput (some varState) with
          | .error e => .error e
          | .ok _ => matchGoF fuel nic.2.2 remaining newVarState

/-- `CheckGroup.match(outputGroup)`: run the group's lines against the
output group's body, starting from the empty table. -/
def CheckGroup.match (g : CheckGroup) (outputGroup : OutputGroup) : Except Err Unit :=
  matchGoF g.lines.length g.lines outputGroup.body []

/-! ## File-level parsing and matching -/

/-- Match a literal prefix, returning the rest. -/
def stripLit : List Char → List Char → Option (List Char)
  | [], rest => some rest
  | _ :: _, [] => none
  | p :: ps, c :: cs => if c = p then stripLit ps cs else none

/-- `CheckFile._extractLine(keyword, line)`: optional whitespace, a comment
marker `//` or `#`, optional whitespace, then `keyword:` anchored at the
start; on success the stripped remainder of the line.  (The keyword is
spliced into the regex verbatim; the prefixes used contain no regex
metacharacters, so it matches literally.) -/
def extractLine (keyword : List Char) (line : List Char) : Option (List Char) :=
  let s := line.dropWhile isSpaceChar
  let afterComment :=
    match stripLit ['/', '/'] s with
    | some r => some r
    | none => stripLit ['#'] s
  match afterComment with
  | none => none
  | some r =>
      match stripLit (keyword ++ [':']) (r.dropWhile isSpaceChar) with
      | none => none
      | some rest => some (stripChars rest)

/-- `CheckFile._processLine`: classify a (stripped, nonempty) line as a
group header, an `InOrder`/`DAG`/`Not` check line, or ignored text.  The
unused line-number parameter of the script is dropped. -/
def processLine (pfx : List Char) (line : List Char) :
    Option (List Char × Variant) × Option (List Char) :=
  match extractLine (pfx ++ ('-' :: "START".toList)) line with
  | some startLine => (none, some startLine)
  | none =>
      match extractLine pfx line with
      | some plainLine => (some (plainLine, .InOrder), none)
      | none =>
          match extractLine (pfx ++ ('-' :: "DAG".toList)) line with
          | some dagLine => (some (dagLine, .DAG), none)
          | none =>
              match extractLine (pfx ++ ('-' :: "NOT".toList)) line with
              | some notLine => (some (notLine, .Not), none)
              | none => (none, none)

/-- A raw group under construction: its name and its classified lines. -/
abbrev RawGroup := List Char × List (List Char × Variant)

/-- Append a processed line to the group currently open (the last one).
`currentGroup` is `None` exactly when no group has been opened yet; the
script then crashes subscripting `None` — the `lineOutsideGroup` error
(the dead helper `_exceptionLineOutsideGroup` names the intended
diagnostic). -/
def appendToLast : List RawGroup → (List Char × Variant) → Option (List RawGroup)
  | [], _ => none
  | [g], pl => some [(g.1, g.2 ++ [pl])]
  | g :: gs, pl => (appendToLast gs pl).map (g :: ·)

/-- `FileSplitMixin._parseStream` specialised to `CheckFile`: skip blank
lines, open a new group on a `-START` header, append every recognised
check line to the open group. -/
def parseStreamGo (pfx : List Char) : List (List Char) → List RawGroup →
    Except Err (List RawGroup)
  | [], acc => .ok acc
  | l :: ls, acc =>
      let line := stripChars l
      if line.isEmpty then parseStreamGo pfx ls acc
      else
        match processLine pfx line with
        | (processedLine, newGroupName) =>
            let acc₁ :=
              match newGroupName with
              | some nm => acc ++ [(nm, [])]
              | none => acc
            match processedLine with
            | none => parseStreamGo pfx ls acc₁
            | some pl =>
                match appendToLast acc₁ pl with
                | none => .error .lineOutsideGroup
                | some acc₂ => parseStreamGo pfx ls acc₂

/-- `CheckFile._processGroup`: parse every line of the raw group, then
build the `CheckGroup` (whose constructor rejects an empty name or body). -/
def processGroup (name : List Char) (lines : List (List Char × Variant)) :
    Except Err CheckGroup :=
  match lines.mapM (fun l => checkLineOf l.1 l.2) with
  | .error e => .error e
  | .ok checkLines =>
      if name.isEmpty then .error .groupNameMissing
      else if checkLines.isEmpty then .error .groupBodyMissing
      else .ok ⟨String.mk name, checkLines⟩

/-- `CheckFile.__init__`: split the stream into raw groups, then parse each. -/
def checkFileParse (pfx : List Char) (stream : List (List Char)) :
    Except Err (List CheckGroup) :=
  match parseStreamGo pfx stream [] with
  | .error e => .error e
  | .ok raw => raw.mapM fun g => processGroup g.1 g.2

/-- `OutputFile.findGroup(name)`: the first output group with exactly the
given name. -/
def findGroup : List OutputGroup → String → Option OutputGroup
  | [], _ => none
  | g :: gs, name => if g.name = name then some g else findGroup gs name

/-- `CheckFile.match(outputFile)`: look up, by exact name, the output group
of every check group in order and match against it; a missing group raises
`Group ... not found in the output`. -/
def checkFileMatch : List CheckGroup → List OutputGroup → Except Err Unit
  | [], _ => .ok ()
  | checkGroup :: rest, outputGroups =>
      match findGroup outputGroups checkGroup.name with
      | none => .error (.groupNotFound checkGroup.name)
      | some outputGroup =>
          match checkGroup.match outputGroup with
          | .error e => .error e
          | .ok _ => checkFileMatch rest outputGroups

/-- Parse a group and match it (the script's construction-then-match path),
used to state concrete end-to-end facts. -/
def matchGroupE (g : Except Err CheckGroup) (og : OutputGroup) : Except Err Unit :=
  match g with
  | .error e => .error e
  | .ok g => g.match og

/-! ## Concrete instances used by the theorems -/

/-- The Python `CheckLine.match` loop never exits on this input: the fueled
embedding runs out however much fuel it is given. -/
def CheckLine.divergesOn (cl : CheckLine) (out : List Char) (vs : VarState) : Prop :=
  ∀ fuel, cl.matchF out vs fuel = none

/-- Extract a successfully parsed check line (the default is never used by
the facts below, which also record that parsing succeeded). -/
def orDefaultCL (e : Except Err CheckLine) : CheckLine :=
  match e with
  | .ok cl => cl
  | .error _ => ⟨.InOrder, []⟩

/-- The pattern of `{{a*}}`: it matches the empty string. -/
def c5pi : Regex :=
  .star (.lit 'a')

/-- Elements of the check line `{{a*}}b`. -/
def c5parts : List CheckElement :=
  [.pattern c5pi, .text (Regex.ofLiteral ['b'])]

/-- The parsed check line `{{a*}}b`. -/
def c5Line : CheckLine :=
  orDefaultCL (checkLineOf ['{', '{', 'a', '*', '}', '}', 'b'] .InOrder)

/-- The parsed check line `ab` (first element cannot match empty). -/
def c5wLine : CheckLine :=
  orDefaultCL (checkLineOf "ab".toList .InOrder)

/-- C1: group with a negative span of two lines strictly between two
`InOrder` spans. -/
def c1group : Except Err CheckGroup :=
  processGroup "G".toList
    [("L1".toList, .InOrder), ("zz".toList, .Not), ("a b".toList, .Not),
     ("L2".toList, .InOrder)]

/-- C1: transcript whose window between `L1` and `L2` is `a x`; the line
`a b` (matching the second negative line) lies outside the window. -/
def c1out : OutputGroup :=
  ⟨"G", ["L1".toList, "a x".toList, "L2".toList, "a b".toList]⟩

/-- C1: the same group with only the one negative line `a b`. -/
def c1groupSingle : Except Err CheckGroup :=
  processGroup "G".toList
    [("L1".toList, .InOrder), ("a b".toList, .Not), ("L2".toList, .InOrder)]

/-- C1: transcript whose window between `L1` and `L2` contains `a b`. -/
def c1outBad : OutputGroup :=
  ⟨"G", ["L1".toList, "a b".toList, "L2".toList]⟩

/-- C2: one `InOrder` line, then a span of two `DAG` lines. -/
def c2group : Except Err CheckGroup :=
  processGroup "G".toList
    [("S".toList, .InOrder), ("A".toList, .DAG), ("B".toList, .DAG)]

/-- C2: the parsed `DAG` check line `A`. -/
def c2lineA : CheckLine :=
  orDefaultCL (checkLineOf "A".toList .DAG)

/-- C3: two `InOrder` lines. -/
def c3group : Except Err CheckGroup :=
  processGroup "G".toList [("A".toList, .InOrder), ("B".toList, .InOrder)]

/-- C3: the parsed `Not` check line `N`. -/
def c3notLine : CheckLine :=
  orDefaultCL (checkLineOf "N".toList .Not)

/-- C3: the parsed `InOrder` check line `A`. -/
def c3inLine : CheckLine :=
  orDefaultCL (checkLineOf "A".toList .InOrder)

/-- C4: a group defining `[[X:[0-9]+]]` and later referencing `[[X]]`. -/
def c4group : Except Err CheckGroup :=
  processGroup "G".toList
    [("v=[[X:[0-9]+]]".toList, .InOrder), ("use [[X]]".toList, .InOrder)]

/-- The whole run (`RunChecks` without the toolchain and file I/O): parse
the annotated stream, then match every group against the output groups. -/
def checkRunE (pfx : List Char) (stream : List (List Char)) (ogs : List OutputGroup) :
    Except Err Unit :=
  match checkFileParse pfx stream with
  | .error e => .error e
  | .ok gs => checkFileMatch gs ogs

/-- C10: the parsed check line `[[X:[0-9]+]]`. -/
def c10Line : CheckLine :=
  orDefaultCL (checkLineOf "[[X:[0-9]+]]".toList .InOrder)

/-- C8: a check group named `G` (one literal `InOrder` line). -/
def c8group : CheckGroup :=
  ⟨"G", [orDefaultCL (checkLineOf "A".toList .InOrder)]⟩

/-- C6: a group that is only a trailing negative span of two lines. -/
def c6group : Except Err CheckGroup :=
  processGroup "G".toList [("zz".toList, .Not), ("a b".toList, .Not)]

/-- C6: the same with the single negative line `a b`. -/
def c6groupSingle : Except Err CheckGroup :=
  processGroup "G".toList [("a b".toList, .Not)]

/-! # Lemmas -/

/-! ## Variable tables -/

theorem lookupVar_append_left {vs : VarState} {n : String} {v : List Char}
    (h : lookupVar vs n = some v) (l : VarState) : lookupVar (vs ++ l) n = some v := by
  induction vs with
  | nil => simp [lookupVar] at h
  | cons hd tl ih =>
      obtain ⟨hn, hv⟩ := hd
      by_cases hc : hn = n
      · simpa [lookupVar, hc] using h
      · simp only [lookupVar, List.cons_append, if_neg hc] at h ⊢
        exact ih h

theorem lookupVar_of_prefix {vs t : VarState} (hpre : vs <+: t) {n : String} {v : List Char}
    (h : lookupVar vs n = some v) : lookupVar t n = some v := by
  obtain ⟨r, rfl⟩ := hpre
  exact lookupVar_append_left h r

/-! ## `find2` -/

theorem find2_none_cons {a b x : Char} {l : List Char}
    (h : find2 a b (x :: l) = none) : find2 a b l = none := by
  cases l with
  | nil => rfl
  | cons y t =>
      by_cases hab : x = a ∧ y = b
      · simp [find2, hab] at h
      · simpa [find2, hab] using h

theorem find2_none_drop {a b : Char} {l : List Char}
    (h : find2 a b l = none) : ∀ k, find2 a b (l.drop k) = none := by
  induction l with
  | nil => intro k; simpa using h
  | cons x t ih =>
      intro k
      cases k with
      | zero => simpa using h
      | succ k => exact ih (find2_none_cons h) k

theorem find2_none_append {a b : Char} {l r : List Char}
    (h : find2 a b (l ++ r) = none) : find2 a b l = none := by
  induction l with
  | nil => rfl
  | cons x t ih =>
      cases t with
      | nil => rfl
      | cons y t' =>
          by_cases hab : x = a ∧ y = b
          · simp [find2, hab] at h
          · have h' : find2 a b (y :: (t' ++ r)) = none := by
              simp only [List.cons_append, find2, if_neg hab] at h
              exact Option.map_eq_none'.mp h
            have h'' : find2 a b (y :: t') = none := ih h'
            simp [find2, if_neg hab, h'']

/-! ## `stripChars` -/

theorem dropWhile_head_false {p : Char → Bool} {l : List Char} {c : Char} {cs : List Char}
    (h : l.dropWhile p = c :: cs) : p c = false := by
  induction l with
  | nil => simp [List.dropWhile] at h
  | cons x t ih =>
      by_cases hx : p x
      · rw [List.dropWhile_cons_of_pos hx] at h
        exact ih h
      · rw [List.dropWhile_cons_of_neg hx] at h
        cases h
        simpa using hx

/-- `l = lead ++ stripChars l ++ trail` with whitespace on both sides. -/
theorem stripChars_decomp (l : List Char) :
    ∃ lead trail, l = lead ++ stripChars l ++ trail ∧
      (∀ c ∈ lead, isSpaceChar c = true) ∧ (∀ c ∈ trail, isSpaceChar c = true) := by
  refine ⟨l.takeWhile isSpaceChar,
    ((l.dropWhile isSpaceChar).reverse.takeWhile isSpaceChar).reverse, ?_, ?_, ?_⟩
  · conv_lhs => rw [← List.takeWhile_append_dropWhile isSpaceChar l]
    rw [List.append_assoc]
    congr 1
    conv_lhs => rw [← List.reverse_reverse (l.dropWhile isSpaceChar),
      ← List.takeWhile_append_dropWhile isSpaceChar (l.dropWhile isSpaceChar).reverse]
    rw [List.reverse_append]
    rfl
  · intro c hc
    exact List.mem_takeWhile_imp hc
  · intro c hc
    rw [List.mem_reverse] at hc
    exact List.mem_takeWhile_imp hc

theorem stripChars_head_false {l : List Char} {c : Char} {cs : List Char}
    (h : stripChars l = c :: cs) : isSpaceChar c = false := by
  have hpre : stripChars l <+: l.dropWhile isSpaceChar := by
    unfold stripChars
    conv_rhs => rw [← List.reverse_reverse (l.dropWhile isSpaceChar),
      ← List.takeWhile_append_dropWhile isSpaceChar (l.dropWhile isSpaceChar).reverse,
      List.reverse_append]
    exact ⟨_, rfl⟩
  obtain ⟨r, hr⟩ := hpre
  rw [h] at hr
  exact dropWhile_head_false hr.symm

theorem stripChars_getLast_false {l : List Char} {ch : Char}
    (h : (stripChars l).getLast? = some ch) : isSpaceChar ch = false := by
  unfold stripChars at h
  rw [List.getLast?_reverse] at h
  rcases hd : (l.dropWhile isSpaceChar).reverse.dropWhile isSpaceChar with _ | ⟨c, cs⟩
  · rw [hd] at h
    simp at h
  · rw [hd] at h
    simp only [List.head?] at h
    cases h
    exact dropWhile_head_false hd

theorem stripChars_marker_free {a b : Char} {l : List Char}
    (h : find2 a b l = none) : find2 a b (stripChars l) = none := by
  obtain ⟨lead, trail, hdec, _, _⟩ := stripChars_decomp l
  have h1 : find2 a b (stripChars l ++ trail) = none := by
    have := find2_none_drop (l := l) h lead.length
    rw [hdec, List.append_assoc, List.drop_left] at this
    exact this
  exact find2_none_append h1

/-! ## Regex lemmas -/

/-- An escaped literal matches exactly itself: the candidate list is the
literal's length precisely when the literal is a prefix of the text. -/
theorem ofLiteral_ends (v s : List Char) :
    (Regex.ofLiteral v).ends s = if v <+: s then [v.length] else [] := by
  induction v generalizing s with
  | nil => simp [Regex.ofLiteral, Regex.ends]
  | cons c cs ih =>
      cases s with
      | nil => simp [Regex.ofLiteral, Regex.ends]
      | cons x t =>
          by_cases hx : x = c
          · subst hx
            simp [Regex.ofLiteral, Regex.ends, ih, List.cons_prefix_cons]
            by_cases hp : cs <+: t <;> simp [hp, Nat.add_comm]
          · have : ¬ (c :: cs <+: x :: t) := by
              rw [List.cons_prefix_cons]
              rintro ⟨rfl, -⟩
              exact hx rfl
            simp [Regex.ofLiteral, Regex.ends, hx, this]

theorem ofLiteral_matchEnd (v s : List Char) :
    (Regex.ofLiteral v).matchEnd s = if v <+: s then some v.length else none := by
  rw [Regex.matchEnd, ofLiteral_ends]
  by_cases h : v <+: s <;> simp [h]

theorem searchStart_none {r : Regex} {s : List Char}
    (h : r.searchStart s = none) : ∀ k, r.ends (s.drop k) = [] := by
  induction s with
  | nil =>
      intro k
      rw [Regex.searchStart] at h
      by_cases he : (r.ends []).isEmpty
      · simpa [List.isEmpty_iff] using he
      · simp [he] at h
  | cons c t ih =>
      intro k
      rw [Regex.searchStart] at h
      by_cases he : (r.ends (c :: t)).isEmpty
      · rw [if_pos he] at h
        cases k with
        | zero => simpa [List.isEmpty_iff] using he
        | succ k => exact ih (Option.map_eq_none'.mp h) k
      · simp [he] at h

theorem searchStart_some_le {r : Regex} {s : List Char} {m : Nat}
    (h : r.ends (s.drop m) ≠ []) : ∃ st, r.searchStart s = some st ∧ st ≤ m := by
  induction s generalizing m with
  | nil =>
      refine ⟨0, ?_, Nat.zero_le m⟩
      rw [Regex.searchStart, if_neg ?_]
      simpa [List.isEmpty_iff] using h
  | cons c t ih =>
      by_cases he : (r.ends (c :: t)).isEmpty
      · cases m with
        | zero =>
            exfalso
            exact h (List.isEmpty_iff.mp he)
        | succ m =>
            obtain ⟨st, hst, hle⟩ := ih (m := m) (by simpa using h)
            exact ⟨st + 1, by rw [Regex.searchStart, if_pos he, hst]; rfl,
              Nat.succ_le_succ hle⟩
      · exact ⟨0, by rw [Regex.searchStart, if_neg he], Nat.zero_le m⟩

theorem searchStart_some {r : Regex} {s : List Char} {st : Nat}
    (h : r.searchStart s = some st) :
    r.ends (s.drop st) ≠ [] ∧ ∀ j, j < st → r.ends (s.drop j) = [] := by
  induction s generalizing st with
  | nil =>
      rw [Regex.searchStart] at h
      by_cases he : (r.ends []).isEmpty
      · simp [he] at h
      · cases h' : (r.ends []).isEmpty
        · refine ⟨?_, ?_⟩
          · rw [if_neg he] at h
            cases h
            simpa [List.isEmpty_iff] using he
          · intro j hj
            rw [if_neg he] at h
            cases h
            omega
        · simp [h'] at he
  | cons c t ih =>
      rw [Regex.searchStart] at h
      by_cases he : (r.ends (c :: t)).isEmpty
      · rw [if_pos he] at h
        cases hs : Regex.searchStart r t with
        | none => rw [hs] at h; simp at h
        | some st' =>
            rw [hs] at h
            simp only [Option.map_some'] at h
            cases h
            obtain ⟨h1, h2⟩ := ih hs
            refine ⟨by simpa using h1, ?_⟩
            intro j hj
            cases j with
            | zero => simpa [List.isEmpty_iff] using he
            | succ j => simpa using h2 j (Nat.lt_of_succ_lt_succ hj)
      · rw [if_neg he] at h
        cases h
        refine ⟨fun hc => he ?_, fun j hj => by omega⟩
        rw [List.isEmpty_iff]
        simpa using hc

theorem starEnds_ne_nil (f : List Char → List Nat) (k : Nat) (s : List Char) :
    starEnds f k s ≠ [] := by
  cases k with
  | zero => simp [starEnds]
  | succ k => simp [starEnds]

/-- Head of the greedy `cls p *` candidate list: the maximal `p`-run. -/
theorem starEnds_cls_head (p : Char → Bool) :
    ∀ (k : Nat) (s : List Char), s.length ≤ k →
      (starEnds (Regex.ends (.cls p)) k s).head? = some ((s.takeWhile p).length) := by
  intro k
  induction k with
  | zero =>
      intro s hs
      have : s = [] := List.length_eq_zero.mp (Nat.le_zero.mp hs)
      subst this
      simp [starEnds, List.takeWhile]
  | succ k ih =>
      intro s hs
      cases s with
      | nil => simp [starEnds, Regex.ends, List.takeWhile]
      | cons c t =>
          by_cases hp : p c
          · have hlen : t.length ≤ k := by
              simpa using Nat.lt_succ_iff.mp (Nat.lt_of_lt_of_le (by simp) hs)
            have hne := starEnds_ne_nil (Regex.ends (.cls p)) k t
            cases hx : starEnds (Regex.ends (.cls p)) k t with
            | nil => exact absurd hx hne
            | cons x xs =>
                have hhead := ih t hlen
                rw [hx] at hhead
                simp only [List.head?] at hhead
                cases hhead
                simp [starEnds, Regex.ends, hp, hx, List.takeWhile_cons_of_pos,
                  Nat.succ_le_succ, Nat.add_comm]
          · simp [starEnds, Regex.ends, hp, List.takeWhile_cons_of_neg, hp]

/-- `re.match` of a greedy `p+` pattern: the maximal nonempty `p`-run. -/
theorem plusCls_matchEnd (p : Char → Bool) (s : List Char) :
    (Regex.plusOf (.cls p)).matchEnd s =
      match s with
      | [] => none
      | c :: t => if p c then some (1 + (t.takeWhile p).length) else none := by
  cases s with
  | nil => simp [Regex.plusOf, Regex.matchEnd, Regex.ends]
  | cons c t =>
      by_cases hp : p c
      · have hne := starEnds_ne_nil (Regex.ends (.cls p)) t.length t
        cases hx : starEnds (Regex.ends (.cls p)) t.length t with
        | nil => exact absurd hx hne
        | cons x xs =>
            have hhead := starEnds_cls_head p t.length t (Nat.le_refl _)
            rw [hx] at hhead
            simp only [List.head?] at hhead
            cases hhead
            simp [Regex.plusOf, Regex.matchEnd, Regex.ends, hp, hx]
      · simp [Regex.plusOf, Regex.matchEnd, Regex.ends, hp]

theorem takeWhile_run {p : Char → Bool} {a b : List Char}
    (ha : ∀ c ∈ a, p c = true) (hb : ∀ x ∈ b.head?, p x = false) :
    (a ++ b).takeWhile p = a := by
  induction a with
  | nil =>
      cases b with
      | nil => rfl
      | cons x xs =>
          have : p x = false := hb x (by simp)
          simp [List.takeWhile_cons_of_neg, this]
  | cons c a' ih =>
      have hc : p c = true := ha c (by simp)
      simp only [List.cons_append, List.takeWhile_cons_of_pos hc]
      rw [ih (fun d hd => ha d (by simp [hd]))]

/-- The whitespace element is the compiled `\s+`. -/
theorem wsRegex_eq : wsRegex = Regex.plusOf (.cls isSpaceChar) := rfl

/-! ## `CheckLine.match` loop lemmas -/

/-- When the first element's pattern has no match at position `q`, the whole
chain attempt at `q` reports a partial failure. -/
theorem matchParts_first_none {part₀ : CheckElement} {rest : List CheckElement}
    {out : List Char} {q : Nat} {vs : VarState} {π : Regex}
    (hgen : generatePattern part₀ vs = .ok π) (hends : π.ends (out.drop q) = []) :
    matchParts (part₀ :: rest) out q vs = .ok none := by
  simp [matchParts, hgen, Regex.matchEnd, hends]

theorem matchLoop_mono {parts : List CheckElement} {π : Regex} {out : List Char}
    {vs : VarState} {r : Except Err (Option VarState)} :
    ∀ {fuel isf : Nat}, matchLoop parts π out vs isf fuel = some r →
      ∀ {fuel' : Nat}, fuel ≤ fuel' → matchLoop parts π out vs isf fuel' = some r := by
  intro fuel
  induction fuel with
  | zero => intro isf h; simp [matchLoop] at h
  | succ fuel ih =>
      intro isf h fuel' hle
      obtain ⟨fuel'', rfl⟩ : ∃ k, fuel' = k + 1 :=
        ⟨fuel' - 1, by omega⟩
      rw [matchLoop] at h ⊢
      cases hss : π.searchStart (out.drop isf) with
      | none => rw [hss] at h; simpa [hss] using h
      | some st =>
          rw [hss] at h
          simp only at h ⊢
          cases hmp : matchParts parts out (isf + st) vs with
          | error e => rw [hmp] at h; simpa [hmp] using h
          | ok o =>
              cases o with
              | none =>
                  rw [hmp] at h
                  simp only at h
                  simp only
                  exact ih h (by omega)
              | some t => rw [hmp] at h; simpa [hmp] using h

/-- Termination and input/output behaviour of the retry loop when the first
element's pattern cannot match the empty string: the loop yields a result
within `out.length + 2 - isf` iterations; a no-match result means every
start position fails, and a returned table comes from the first start
position whose whole-chain attempt succeeds. -/
theorem matchLoop_proper {part₀ : CheckElement} {rest : List CheckElement} {π : Regex}
    {out : List Char} {vs : VarState}
    (hgen : generatePattern part₀ vs = .ok π) (hproper : π.ends [] = []) :
    ∀ (fuel isf : Nat), isf ≤ out.length + 1 → out.length + 2 - isf ≤ fuel →
      ∃ r, matchLoop (part₀ :: rest) π out vs isf fuel = some r ∧
        (r = .ok none → ∀ q, isf ≤ q → matchParts (part₀ :: rest) out q vs = .ok none) ∧
        (∀ t, r = .ok (some t) →
          ∃ q, isf ≤ q ∧ matchParts (part₀ :: rest) out q vs = .ok (some t) ∧
            ∀ q', isf ≤ q' → q' < q → matchParts (part₀ :: rest) out q' vs = .ok none) := by
  intro fuel
  induction fuel with
  | zero => intro isf h1 h2; omega
  | succ fuel ih =>
      intro isf h1 _
      rw [matchLoop]
      cases hss : π.searchStart (out.drop isf) with
      | none =>
          refine ⟨.ok none, rfl, ?_, ?_⟩
          · intro _ q hq
            have hz := searchStart_none hss (q - isf)
            rw [List.drop_drop, Nat.add_sub_cancel' hq] at hz
            exact matchParts_first_none hgen hz
          · intro t ht
            exact absurd ht (by simp)
      | some st =>
          obtain ⟨hst, hskip⟩ := searchStart_some hss
          have hskip' : ∀ q', isf ≤ q' → q' < isf + st →
              matchParts (part₀ :: rest) out q' vs = .ok none := by
            intro q' hq1 hq2
            have hz := hskip (q' - isf) (by omega)
            rw [List.drop_drop, Nat.add_sub_cancel' hq1] at hz
            exact matchParts_first_none hgen hz
          have hlt : isf + st < out.length := by
            rcases Nat.lt_or_ge (isf + st) out.length with h | h
            · exact h
            · exfalso
              apply hst
              rw [List.drop_drop] at hst
              have : out.drop (isf + st) = [] := List.drop_eq_nil_of_le h
              rw [List.drop_drop, this]
              exact hproper
          simp only
          cases hmp : matchParts (part₀ :: rest) out (isf + st) vs with
          | error e =>
              exact ⟨.error e, rfl, fun hr => absurd hr (by simp),
                fun t ht => absurd ht (by simp)⟩
          | ok o =>
              cases o with
              | some t₀ =>
                  refine ⟨.ok (some t₀), rfl, fun hr => absurd hr (by simp), ?_⟩
                  intro t ht
                  obtain rfl : t₀ = t := by cases ht; rfl
                  exact ⟨isf + st, by omega, hmp, hskip'⟩
              | none =>
                  obtain ⟨r, hr, hc1, hc2⟩ :=
                    ih (isf + st + 1) (by omega) (by omega)
                  refine ⟨r, hr, ?_, ?_⟩
                  · intro hrn q hq
                    rcases Nat.lt_or_ge q (isf + st) with h | h
                    · exact hskip' q hq h
                    · rcases Nat.eq_or_lt_of_le h with h' | h'
                      · rw [← h']; exact hmp
                      · exact hc1 hrn q (by omega)
                  · intro t ht
                    obtain ⟨q, hq1, hq2, hq3⟩ := hc2 t ht
                    refine ⟨q, by omega, hq2, ?_⟩
                    intro q' hq'1 hq'2
                    rcases Nat.lt_or_ge q' (isf + st) with h | h
                    · exact hskip' q' hq'1 h
                    · rcases Nat.eq_or_lt_of_le h with h' | h'
                      · rw [← h']; exact hmp
                      · exact hq3 q' (by omega) hq'2

/-- A table returned by the loop comes from a whole-chain attempt on the
same input table. -/
theorem matchLoop_result_table {parts : List CheckElement} {π : Regex} {out : List Char}
    {vs t : VarState} :
    ∀ {fuel isf : Nat}, matchLoop parts π out vs isf fuel = some (.ok (some t)) →
      ∃ q, matchParts parts out q vs = .ok (some t) := by
  intro fuel
  induction fuel with
  | zero => intro isf h; simp [matchLoop] at h
  | succ fuel ih =>
      intro isf h
      rw [matchLoop] at h
      cases hss : π.searchStart (out.drop isf) with
      | none => rw [hss] at h; simp at h
      | some st =>
          rw [hss] at h
          simp only at h
          cases hmp : matchParts parts out (isf + st) vs with
          | error e => rw [hmp] at h; simp at h
          | ok o =>
              cases o with
              | none =>
                  rw [hmp] at h
                  simp only at h
                  exact ih h
              | some t' =>
                  rw [hmp] at h
                  simp only at h
                  cases h
                  exact ⟨isf + st, hmp⟩

/-- A successful chain attempt only appends bindings to the table. -/
theorem matchParts_extends :
    ∀ {parts : List CheckElement} {out : List Char} {q : Nat} {vs t : VarState},
      matchParts parts out q vs = .ok (some t) → vs <+: t := by
  intro parts
  induction parts with
  | nil =>
      intro out q vs t h
      simp only [matchParts] at h
      cases h
      exact List.prefix_refl _
  | cons part rest ih =>
      intro out q vs t h
      rw [matchParts] at h
      cases hgen : generatePattern part vs with
      | error e => rw [hgen] at h; simp at h
      | ok π =>
          rw [hgen] at h
          simp only at h
          cases hme : π.matchEnd (out.drop q) with
          | none => rw [hme] at h; simp at h
          | some e =>
              rw [hme] at h
              simp only at h
              cases part with
              | varDef name r =>
                  by_cases hc : containsVar vs name
                  · simp [hc] at h
                  · simp only [hc, if_neg, Bool.false_eq_true, if_false] at h
                    have h1 := ih h
                    exact (List.prefix_append vs _).trans h1
              | text r => exact ih h
              | pattern r => exact ih h
              | varRef name => exact ih h

/-- `CheckLine.match` only appends bindings (input bindings survive intact). -/
theorem checkLineMatch_extends {cl : CheckLine} {out : List Char} {vs t : VarState}
    (h : cl.match out vs = .ok (some t)) : vs <+: t := by
  rw [CheckLine.match] at h
  cases hmf : cl.matchF out vs (out.length + 2) with
  | none => rw [hmf] at h; simp at h
  | some r =>
      rw [hmf] at h
      simp only at h
      subst h
      rw [CheckLine.matchF] at hmf
      cases hlp : cl.lineParts with
      | nil => rw [hlp] at hmf; simp at hmf
      | cons part₀ rest =>
          rw [hlp] at hmf
          simp only at hmf
          cases hgen : generatePattern part₀ vs with
          | error e => rw [hgen] at hmf; simp at hmf
          | ok π =>
              rw [hgen] at hmf
              simp only at hmf
              obtain ⟨q, hq⟩ := matchLoop_result_table hmf
              rw [← hlp] at hq
              exact matchParts_extends hq

/-! ## C5 -/

/-- From any start position past the first character of the output `c`, the
retry loop on `{{a*}}b` steps forever: the search always succeeds (the
pattern matches the empty string) and the chain always fails. -/
theorem c5_loop_tail : ∀ (fuel k : Nat), matchLoop c5parts c5pi ['c'] [] (k + 1) fuel = none := by
  intro fuel
  induction fuel with
  | zero => intro k; rfl
  | succ fuel ih =>
      intro k
      have hd : (['c'] : List Char).drop (k + 1) = [] := by
        cases k <;> simp
      have hmp : matchParts c5parts ['c'] (k + 1) [] = .ok none := by
        simp [c5parts, matchParts, generatePattern, Regex.matchEnd, hd, Regex.ends,
          starEnds, c5pi, Regex.ofLiteral]
      rw [matchLoop, hd]
      have hss : c5pi.searchStart [] = some 0 := rfl
      rw [hss]
      simp only [Nat.add_zero]
      rw [hmp]
      simp only
      exact ih (k + 1)

theorem c5_divergesOn : CheckLine.divergesOn c5Line ['c'] [] := by
  intro fuel
  cases fuel with
  | zero => rfl
  | succ fuel =>
      have hstep : c5Line.matchF ['c'] [] (fuel + 1) =
          matchLoop c5parts c5pi ['c'] [] 1 fuel := rfl
      rw [hstep]
      exact c5_loop_tail fuel 0

/-- C5 counterexample: the check line `{{a*}}b` parses, yet
`CheckLine.match` on the transcript line `c` never terminates (the fueled
loop returns nothing for every fuel): the first element's pattern `a*`
matches the empty string at every retry position, so the loop never runs
out of start positions.  The claim's universally quantified termination
statement is therefore false. -/
theorem claim_C5_counterexample :
    checkLineOf ['{', '{', 'a', '*', '}', '}', 'b'] .InOrder = .ok c5Line ∧
      CheckLine.divergesOn c5Line ['c'] [] :=
  ⟨rfl, c5_divergesOn⟩

/-- C5 (amended): for every check line whose first element's generated
pattern cannot match the empty string, every transcript line, and every
variable table that binds all names the line references, `CheckLine.match`
terminates (all fuels from `out.length + 2` on return the same result): it
returns an updated table exactly when some start position lets every
element match contiguously in order — the first such position — and it
reports no match when no start position for the first element admits a full
match. -/
theorem claim_C5 (cl : CheckLine) (out : List Char) (vs : VarState)
    (part₀ : CheckElement) (rest : List CheckElement) (π : Regex)
    (hparts : cl.lineParts = part₀ :: rest)
    (hgen : generatePattern part₀ vs = .ok π)
    (hproper : π.ends [] = []) :
    (∀ fuel, out.length + 2 ≤ fuel → cl.matchF out vs fuel = some (cl.match out vs)) ∧
    (cl.match out vs = .ok none → ∀ q, matchParts cl.lineParts out q vs = .ok none) ∧
    (∀ t, cl.match out vs = .ok (some t) →
      ∃ q, matchParts cl.lineParts out q vs = .ok (some t) ∧
        ∀ q', q' < q → matchParts cl.lineParts out q' vs = .ok none) := by
  obtain ⟨r, hr, hc1, hc2⟩ :=
    @matchLoop_proper part₀ rest π out vs hgen hproper (out.length + 2) 0
      (by omega) (by omega)
  have hmf : cl.matchF out vs (out.length + 2) = some r := by
    rw [CheckLine.matchF, hparts]
    simp only [hgen]
    exact hr
  have hmatch : cl.match out vs = r := by
    rw [CheckLine.match, hmf]
  refine ⟨?_, ?_, ?_⟩
  · intro fuel hfuel
    rw [hmatch]
    rw [CheckLine.matchF, hparts]
    simp only [hgen]
    exact matchLoop_mono hr hfuel
  · intro hnone q
    rw [hparts]
    exact hc1 (hmatch ▸ hnone) q (Nat.zero_le q)
  · intro t ht
    obtain ⟨q, _, hq2, hq3⟩ := hc2 t (hmatch ▸ ht)
    rw [hparts]
    exact ⟨q, hq2, fun q' hq' => hq3 q' (Nat.zero_le q') hq'⟩

/-- C5 witness: the amended theorem applied to the parsed line `ab`, the
transcript line `xab`, and the empty table. -/
theorem claim_C5_witness :
    (c5wLine.lineParts = .text (Regex.ofLiteral "ab".toList) :: [] ∧
      generatePattern (.text (Regex.ofLiteral "ab".toList)) [] =
        .ok (Regex.ofLiteral "ab".toList) ∧
      (Regex.ofLiteral "ab".toList).ends [] = []) ∧
    ((∀ fuel, ("xab".toList).length + 2 ≤ fuel →
        c5wLine.matchF "xab".toList [] fuel = some (c5wLine.match "xab".toList [])) ∧
      (c5wLine.match "xab".toList [] = .ok none →
        ∀ q, matchParts c5wLine.lineParts "xab".toList q [] = .ok none) ∧
      (∀ t, c5wLine.match "xab".toList [] = .ok (some t) →
        ∃ q, matchParts c5wLine.lineParts "xab".toList q [] = .ok (some t) ∧
          ∀ q', q' < q → matchParts c5wLine.lineParts "xab".toList q' [] = .ok none)) :=
  ⟨⟨rfl, rfl, by decide⟩,
    claim_C5 c5wLine "xab".toList [] (.text (Regex.ofLiteral "ab".toList)) []
      (Regex.ofLiteral "ab".toList) rfl rfl (by decide)⟩

/-! ## The group loop consumes at least one check line per iteration

These lemmas justify the fuel choice in `matchGoF`: fuel `lines.length`
is sufficient, every larger fuel gives the same result, and so the
`divergence` exit is unreachable — `CheckGroup.match` is exactly the
`while checkLines` loop of the source. -/

theorem splitByVariant_append (ls : List CheckLine) (v : Variant) :
    (splitByVariant ls v).1 ++ (splitByVariant ls v).2 = ls := by
  induction ls with
  | nil => rfl
  | cons l t ih =>
      rw [splitByVariant]
      by_cases hl : l.variant = v
      · simp only [if_pos hl]
        simpa using ih
      · simp [if_neg hl]

theorem splitByVariant_snd_head (ls : List CheckLine) (v : Variant) (h : CheckLine)
    (t : List CheckLine) (hc : (splitByVariant ls v).2 = h :: t) : h.variant ≠ v := by
  induction ls with
  | nil => simp [splitByVariant] at hc
  | cons l rest ih =>
      rw [splitByVariant] at hc
      by_cases hl : l.variant = v
      · rw [if_pos hl] at hc
        exact ih (by simpa using hc)
      · rw [if_neg hl] at hc
        simp only at hc
        obtain ⟨rfl, -⟩ := List.cons.injEq l rest h t ▸ hc
        exact hl

theorem nextIndependentChecks_length (ls : List CheckLine) (hne : ls ≠ []) :
    (nextIndependentChecks ls).2.2.length < ls.length := by
  rcases hs : splitByVariant ls Variant.Not with ⟨nots, rest⟩
  have happ : nots ++ rest = ls := by
    have := splitByVariant_append ls Variant.Not
    rw [hs] at this
    exact this
  cases rest with
  | nil =>
      have hnic : nextIndependentChecks ls = (nots, [], []) := by
        rw [nextIndependentChecks, hs]
      rw [hnic]
      simpa using List.length_pos.mpr hne
  | cons h t =>
      have hl1 := congrArg List.length happ
      simp only [List.length_append, List.length_cons] at hl1
      by_cases hv : h.variant = .InOrder
      · have hnic : nextIndependentChecks ls = (nots, [h], t) := by
          rw [nextIndependentChecks, hs]
          simp [hv]
        rw [hnic]
        have : t.length < ls.length := by omega
        simpa using this
      · have hnot : h.variant ≠ .Not := splitByVariant_snd_head ls _ h t (by rw [hs])
        have hdag : h.variant = .DAG := by
          cases hvv : h.variant
          · exact absurd hvv hv
          · rfl
          · exact absurd hvv hnot
        have hs2 : splitByVariant (h :: t) Variant.DAG =
            (h :: (splitByVariant t Variant.DAG).1, (splitByVariant t Variant.DAG).2) := by
          rw [splitByVariant, if_pos hdag]
        have happ2 : (splitByVariant t Variant.DAG).1 ++ (splitByVariant t Variant.DAG).2
            = t := splitByVariant_append t Variant.DAG
        have hnic : nextIndependentChecks ls =
            (nots, h :: (splitByVariant t Variant.DAG).1,
              (splitByVariant t Variant.DAG).2) := by
          rw [nextIndependentChecks, hs]
          simp [hv, hs2]
        rw [hnic]
        have hl2 := congrArg List.length happ2
        simp only [List.length_append] at hl2
        have : (splitByVariant t Variant.DAG).2.length < ls.length := by omega
        simpa using this

theorem matchGoF_succ :
    ∀ (fuel : Nat) (lines : List CheckLine) (outs : List (List Char)) (vs : VarState),
      lines.length ≤ fuel →
      matchGoF (fuel + 1) lines outs vs = matchGoF fuel lines outs vs := by
  intro fuel
  induction fuel with
  | zero =>
      intro lines outs vs h
      have : lines = [] := List.length_eq_zero.mp (Nat.le_zero.mp h)
      subst this
      rfl
  | succ fuel ih =>
      intro lines outs vs h
      cases lines with
      | nil => rfl
      | cons l rest =>
          rw [matchGoF, matchGoF]
          cases hmi : matchIndependentChecks
              (nextIndependentChecks (l :: rest)).2.1 outs vs with
          | error e => rfl
          | ok triple =>
              obtain ⟨notOutput, remaining, newVs⟩ := triple
              simp only
              cases hmn : matchNotLines (nextIndependentChecks (l :: rest)).1 notOutput
                  (some vs) with
              | error e => rfl
              | ok u =>
                  simp only
                  have hlen : (nextIndependentChecks (l :: rest)).2.2.length ≤ fuel := by
                    have := nextIndependentChecks_length (l :: rest) (by simp)
                    simp only [List.length_cons] at this h
                    omega
                  exact ih _ remaining newVs hlen

theorem matchGoF_fuel :
    ∀ (k fuel : Nat) (lines : List CheckLine) (outs : List (List Char)) (vs : VarState),
      lines.length ≤ fuel →
      matchGoF (fuel + k) lines outs vs = matchGoF fuel lines outs vs := by
  intro k
  induction k with
  | zero => intro fuel lines outs vs _; rfl
  | succ k ih =>
      intro fuel lines outs vs h
      have hs : fuel + (k + 1) = (fuel + k) + 1 := rfl
      rw [hs, matchGoF_succ (fuel + k) lines outs vs (by omega)]
      exact ih fuel lines outs vs h

/-- Any fuel at least `g.lines.length` computes `CheckGroup.match`. -/
theorem checkGroupMatch_fuel (g : CheckGroup) (og : OutputGroup) (fuel : Nat)
    (h : g.lines.length ≤ fuel) : matchGoF fuel g.lines og.body [] = g.match og := by
  obtain ⟨k, rfl⟩ : ∃ k, fuel = g.lines.length + k := ⟨fuel - g.lines.length, by omega⟩
  rw [CheckGroup.match]
  exact matchGoF_fuel k g.lines.length g.lines og.body [] (Nat.le_refl _)

/-! ## C10 -/

/-- C10: `CheckLine.match` threads the table functionally: on success the
returned table extends the input table (the input is a prefix, since new
bindings are only appended), so every name bound in the input keeps its
value; and an attempt to rebind an already-bound name raises the
redefinition error instead of changing the binding. -/
theorem claim_C10 :
    (∀ (cl : CheckLine) (out : List Char) (vs t : VarState),
        cl.match out vs = .ok (some t) →
          vs <+: t ∧ ∀ n v, lookupVar vs n = some v → lookupVar t n = some v) ∧
    (∀ (n : String) (r : Regex) (rest : List CheckElement) (out : List Char) (q : Nat)
        (vs : VarState) (e : Nat), containsVar vs n = true →
        r.matchEnd (out.drop q) = some e →
        matchParts (.varDef n r :: rest) out q vs = .error (.redefinedVariable n)) := by
  constructor
  · intro cl out vs t h
    have hpre := checkLineMatch_extends h
    exact ⟨hpre, fun n v hv => lookupVar_of_prefix hpre hv⟩
  · intro n r rest out q vs e hc hme
    simp [matchParts, generatePattern, hme, hc]

/-- C10 witness: the line `[[X:[0-9]+]]` matched against `a12` starting
from a table binding `Y`, and a redefinition attempt of `X`. -/
theorem claim_C10_witness :
    (c10Line.match "a12".toList [("Y", "q".toList)] =
        .ok (some [("Y", "q".toList), ("X", "12".toList)]) ∧
      ([("Y", "q".toList)] : VarState) <+: [("Y", "q".toList), ("X", "12".toList)] ∧
      (∀ n v, lookupVar [("Y", "q".toList)] n = some v →
        lookupVar [("Y", "q".toList), ("X", "12".toList)] n = some v)) ∧
    (containsVar [("X", "9".toList)] "X" = true ∧
      matchParts [.varDef "X" (Regex.plusOf (.cls isDigitChar))] "a12".toList 1
        [("X", "9".toList)] = .error (.redefinedVariable "X")) := by
  have h1 := claim_C10.1 c10Line "a12".toList [("Y", "q".toList)]
    [("Y", "q".toList), ("X", "12".toList)] (by decide)
  have h2 := claim_C10.2 "X" (Regex.plusOf (.cls isDigitChar)) [] "a12".toList 1
    [("X", "9".toList)] 2 (by decide) (by decide)
  exact ⟨⟨by decide, h1.1, h1.2⟩, ⟨by decide, h2⟩⟩

/-! ## C4 -/

/-- C4: a matching `VarDef` element binds its name to the exact consumed
slice of the transcript line, visible to the subsequent elements of the
same line; a `VarRef` is matched as the escaped literal of the bound value,
which matches exactly that string; concretely, the group
`v=[[X:[0-9]+]]` / `use [[X]]` accepts the transcript `v=42`,`use 42`,
rejects `v=42`,`use 43` (although `43` matches `[0-9]+`), and a reference
to `X` from a different group fails with an undefined-variable error (the
table never crosses groups). -/
theorem claim_C4 :
    (∀ (n : String) (r : Regex) (rest : List CheckElement) (out : List Char) (q e : Nat)
        (vs : VarState),
        containsVar vs n = false → r.matchEnd (out.drop q) = some e →
        matchParts (.varDef n r :: rest) out q vs =
          matchParts rest out (q + e) (insertVar vs n (slice out q (q + e)))) ∧
    (∀ (vs : VarState) (n : String) (v : List Char),
        lookupVar vs n = some v →
        generatePattern (.varRef n) vs = .ok (Regex.ofLiteral v)) ∧
    (∀ (v s : List Char),
        (Regex.ofLiteral v).matchEnd s = if v <+: s then some v.length else none) ∧
    matchGroupE c4group ⟨"G", ["v=42".toList, "use 42".toList]⟩ = .ok () ∧
    matchGroupE c4group ⟨"G", ["v=42".toList, "use 43".toList]⟩ =
      .error .couldNotMatchLine ∧
    checkRunE "CHECK".toList
      ["// CHECK-START: G1".toList, "// CHECK: v=[[X:[0-9]+]]".toList,
       "// CHECK-START: G2".toList, "// CHECK: use [[X]]".toList]
      [⟨"G1", ["v=42".toList]⟩, ⟨"G2", ["use 42".toList]⟩] =
      .error (.undefinedVariable "X") := by
  refine ⟨?_, ?_, ofLiteral_matchEnd, by decide, by decide, by decide⟩
  · intro n r rest out q e vs hc hme
    simp [matchParts, generatePattern, hme, hc]
  · intro vs n v hv
    simp [generatePattern, hv]

/-- C4 witness: the general parts of the theorem instantiated at the
binding of `X` to `42` in `v=42`. -/
theorem claim_C4_witness :
    (containsVar [] "X" = false ∧
      (Regex.plusOf (.cls isDigitChar)).matchEnd ("v=42".toList.drop 2) = some 2 ∧
      matchParts [.varDef "X" (Regex.plusOf (.cls isDigitChar))] "v=42".toList 2 [] =
        matchParts [] "v=42".toList 4 (insertVar [] "X" (slice "v=42".toList 2 4))) ∧
    (lookupVar [("X", "42".toList)] "X" = some "42".toList ∧
      generatePattern (.varRef "X") [("X", "42".toList)] =
        .ok (Regex.ofLiteral "42".toList)) ∧
    (Regex.ofLiteral "42".toList).matchEnd "42x".toList =
      (if "42".toList <+: "42x".toList then some ("42".toList).length else none) := by
  refine ⟨⟨by decide, by decide, ?_⟩, ⟨by decide, ?_⟩, ?_⟩
  · exact claim_C4.1 "X" (Regex.plusOf (.cls isDigitChar)) [] "v=42".toList 2 2 []
      (by decide) (by decide)
  · exact claim_C4.2.1 [("X", "42".toList)] "X" "42".toList (by decide)
  · exact claim_C4.2.2.1 "42".toList "42x".toList

/-! ## C1 and C6: the `None`-table slip in `__matchNotLines`

`__matchNotLines` reassigns `varState` to the second component of
`__findFirstMatch`'s return value; after a negative line (correctly)
matches nothing, that component is `None`, so the next negative line of the
same span is matched under a `None` table and the script crashes with a
`TypeError` (`dict(None)`) as soon as that line's first element is found
anywhere in the window — even though the line matches no window line.  The
method's own docstring says "Variable state does not change." -/

/-- C1: with the negative span `zz`, `a b` strictly between `L1` and `L2`
and the window `["a x"]`, the run crashes with the `TypeError` even though
`a b` matches only the transcript line outside the window; with the single
negative line `a b` the same window is accepted, and a window that does
contain `a b` is correctly rejected — so the window itself is the claimed
one, and only the multi-line negative span misbehaves. -/
theorem claim_C1 :
    matchGroupE c1group c1out = .error .noneTypeError ∧
    matchGroupE c1groupSingle c1out = .ok () ∧
    matchGroupE c1groupSingle c1outBad = .error .notLineMatchedOutput := by
  refine ⟨by decide, by decide, by decide⟩

/-- C6: a group consisting only of the trailing negative span `zz`, `a b`
crashes with the `TypeError` on the remaining line `a x` (which neither
negative line matches), while the single-line variants behave as claimed:
`a x` is accepted and `a b` is rejected. -/
theorem claim_C6 :
    matchGroupE c6group ⟨"G", ["a x".toList]⟩ = .error .noneTypeError ∧
    matchGroupE c6groupSingle ⟨"G", ["a x".toList]⟩ = .ok () ∧
    matchGroupE c6groupSingle ⟨"G", ["a b".toList]⟩ = .error .notLineMatchedOutput := by
  refine ⟨by decide, by decide, by decide⟩

/-! ## C2 -/

theorem findFirstMatchFrom_spec {cl : CheckLine} {filt : List Nat} :
    ∀ {outs : List (List Char)} {k n : Nat} {vs vs' : VarState},
      findFirstMatchFrom cl filt (some vs) outs k = .ok (some (n, vs')) →
        k < n ∧ n ≤ k + outs.length ∧ filt.contains n = false ∧
        cl.match (outs.getD (n - k - 1) []) vs = .ok (some vs') ∧
        ∀ m, k < m → m < n → filt.contains m = false →
          cl.match (outs.getD (m - k - 1) []) vs = .ok none := by
  intro outs
  induction outs with
  | nil => intro k n vs vs' h; simp [findFirstMatchFrom] at h
  | cons out rest ih =>
      intro k n vs vs' h
      rw [findFirstMatchFrom] at h
      by_cases hf : filt.contains (k + 1)
      · rw [if_pos hf] at h
        obtain ⟨h1, h2, h3, h4, h5⟩ := ih h
        refine ⟨by omega, by simp only [List.length_cons]; omega, h3, ?_, ?_⟩
        · have : n - k - 1 = (n - (k + 1) - 1) + 1 := by omega
          rw [this]
          simpa using h4
        · intro m hm1 hm2 hm3
          rcases Nat.eq_or_lt_of_le hm1 with h' | h'
          · exfalso
            have hmeq : m = k + 1 := by omega
            rw [hmeq] at hm3
            rw [hm3] at hf
            exact Bool.noConfusion hf
          · have : m - k - 1 = (m - (k + 1) - 1) + 1 := by omega
            rw [this]
            simpa using h5 m h' hm2 hm3
      · rw [if_neg hf] at h
        simp only [CheckLine.matchOpt] at h
        cases hm : cl.match out vs with
        | error e => rw [hm] at h; simp at h
        | ok o =>
            cases o with
            | none =>
                rw [hm] at h
                simp only at h
                obtain ⟨h1, h2, h3, h4, h5⟩ := ih h
                refine ⟨by omega, by simp only [List.length_cons]; omega, h3, ?_, ?_⟩
                · have : n - k - 1 = (n - (k + 1) - 1) + 1 := by omega
                  rw [this]
                  simpa using h4
                · intro m hm1 hm2 hm3
                  rcases Nat.eq_or_lt_of_le hm1 with h' | h'
                  · have : m - k - 1 = 0 := by omega
                    rw [this]
                    simpa using hm
                  · have : m - k - 1 = (m - (k + 1) - 1) + 1 := by omega
                    rw [this]
                    simpa using h5 m h' hm2 hm3
            | some v' =>
                rw [hm] at h
                simp only at h
                cases h
                refine ⟨by omega, by simp, by simpa using hf, ?_, ?_⟩
                · have : k + 1 - k - 1 = 0 := by omega
                  rw [this]
                  simpa using hm
                · intro m hm1 hm2 _
                  omega

/-- C2: a `DAG` line of an independent span is matched to the first
not-yet-consumed transcript line of the current window (scanning from the
window's start and skipping the numbers already consumed by the span), the
matched number joins the span's consumed set for the later lines of the
span, and the span accepts transcript lines in any relative order — the
group `S` / `A`-DAG / `B`-DAG accepts the transcript `S`,`B`,`A`, while a
line matching only before the previous span's match (`B`,`S`,`A`) fails. -/
theorem claim_C2 :
    (∀ (cl : CheckLine) (outs : List (List Char)) (filt : List Nat) (vs vs' : VarState)
        (n : Nat),
        findFirstMatch cl outs filt (some vs) = .ok (some (n, vs')) →
          1 ≤ n ∧ n ≤ outs.length ∧ filt.contains n = false ∧
          cl.match (outs.getD (n - 1) []) vs = .ok (some vs') ∧
          ∀ m, 1 ≤ m → m < n → filt.contains m = false →
            cl.match (outs.getD (m - 1) []) vs = .ok none) ∧
    (∀ (cl : CheckLine) (cls : List CheckLine) (outs : List (List Char)) (vs vs₁ : VarState)
        (matched : List Nat) (n : Nat),
        findFirstMatch cl outs matched (some vs) = .ok (some (n, vs₁)) →
        matchIndependentGo (cl :: cls) outs vs matched =
          matchIndependentGo cls outs vs₁ (matched ++ [n])) ∧
    matchGroupE c2group ⟨"G", ["S".toList, "B".toList, "A".toList]⟩ = .ok () ∧
    matchGroupE c2group ⟨"G", ["B".toList, "S".toList, "A".toList]⟩ =
      .error .couldNotMatchLine := by
  refine ⟨?_, ?_, by decide, by decide⟩
  · intro cl outs filt vs vs' n h
    obtain ⟨h1, h2, h3, h4, h5⟩ := findFirstMatchFrom_spec (k := 0) h
    refine ⟨h1, by simpa using h2, h3, by simpa using h4, ?_⟩
    intro m hm1 hm2 hm3
    simpa using h5 m hm1 hm2 hm3
  · intro cl cls outs vs vs₁ matched n h
    simp [matchIndependentGo, h]

/-- C2 witness: the `DAG` line `A` against the window `B`,`A` finds line 2,
having scanned past the non-matching line 1. -/
theorem claim_C2_witness :
    (findFirstMatch c2lineA ["B".toList, "A".toList] [] (some []) = .ok (some (2, [])) ∧
      (1 ≤ 2 ∧ 2 ≤ (["B".toList, "A".toList]).length ∧
        ([] : List Nat).contains 2 = false ∧
        c2lineA.match ((["B".toList, "A".toList]).getD (2 - 1) []) [] = .ok (some []) ∧
        ∀ m, 1 ≤ m → m < 2 → ([] : List Nat).contains m = false →
          c2lineA.match ((["B".toList, "A".toList]).getD (m - 1) []) [] = .ok none)) ∧
    matchIndependentGo [c2lineA] ["B".toList, "A".toList] [] [] =
      matchIndependentGo [] ["B".toList, "A".toList] [] ([] ++ [2]) :=
  ⟨⟨by decide,
    claim_C2.1 c2lineA ["B".toList, "A".toList] [] [] [] 2 (by decide)⟩,
   claim_C2.2.1 c2lineA [] ["B".toList, "A".toList] [] [] [] 2 (by decide)⟩

/-! ## C3 -/

theorem splitByVariant_all {v : Variant} :
    ∀ {a : List CheckLine}, (∀ l ∈ a, l.variant = v) →
      ∀ {h : CheckLine}, h.variant ≠ v → ∀ (t : List CheckLine),
        splitByVariant (a ++ h :: t) v = (a, h :: t) := by
  intro a
  induction a with
  | nil =>
      intro _ h hh t
      simp [splitByVariant, hh]
  | cons x a' ih =>
      intro ha h hh t
      have hx : x.variant = v := ha x (by simp)
      have ihr := ih (fun l hl => ha l (by simp [hl])) hh t
      simp only [List.cons_append, splitByVariant, if_pos hx, List.append_eq, ihr]

/-- C3: after the leading negative lines, an `InOrder` head always forms
the one-line independent span `[hd]` (it is never batched with anything),
and the rest of the group continues after it; consequently for the group
`A` / `B` (both `InOrder`), the transcript `B`,`A` — where the only line
matching `B` precedes every line matching `A` — fails, while `A`,`B`
succeeds. -/
theorem claim_C3 :
    (∀ (nots : List CheckLine) (hd : CheckLine) (tl : List CheckLine),
        (∀ l ∈ nots, l.variant = .Not) → hd.variant = .InOrder →
        nextIndependentChecks (nots ++ hd :: tl) = (nots, [hd], tl)) ∧
    matchGroupE c3group ⟨"G", ["B".toList, "A".toList]⟩ = .error .couldNotMatchLine ∧
    matchGroupE c3group ⟨"G", ["A".toList, "B".toList]⟩ = .ok () := by
  refine ⟨?_, by decide, by decide⟩
  intro nots hd tl hnots hhd
  have hne : hd.variant ≠ Variant.Not := by rw [hhd]; intro hc; cases hc
  rw [nextIndependentChecks, splitByVariant_all hnots hne tl]
  simp [hhd]

/-- C3 witness: the span extraction applied to a negative line `N`
followed by the `InOrder` line `A`. -/
theorem claim_C3_witness :
    ((∀ l ∈ [c3notLine], l.variant = Variant.Not) ∧ c3inLine.variant = .InOrder) ∧
    nextIndependentChecks ([c3notLine] ++ c3inLine :: []) = ([c3notLine], [c3inLine], []) :=
  ⟨⟨by decide, by decide⟩,
   claim_C3.1 [c3notLine] c3inLine [] (by decide) (by decide)⟩

/-! ## C8 -/

/-- C8: `findGroup` compares names by exact string equality and returns
the first group, in encounter order, whose name equals the query; when no
output group bears the name of a check group, the run raises the
group-not-found error naming that group. -/
theorem claim_C8 :
    (∀ (gs : List OutputGroup) (n : String) (g : OutputGroup),
        findGroup gs n = some g →
          g.name = n ∧ ∃ pre post, gs = pre ++ g :: post ∧ ∀ g' ∈ pre, g'.name ≠ n) ∧
    (∀ (gs : List OutputGroup) (n : String),
        (∀ g ∈ gs, g.name ≠ n) → findGroup gs n = none) ∧
    (∀ (cg : CheckGroup) (rest : List CheckGroup) (ogs : List OutputGroup),
        (∀ og ∈ ogs, og.name ≠ cg.name) →
        checkFileMatch (cg :: rest) ogs = .error (.groupNotFound cg.name)) := by
  have h2 : ∀ (gs : List OutputGroup) (n : String),
      (∀ g ∈ gs, g.name ≠ n) → findGroup gs n = none := by
    intro gs n
    induction gs with
    | nil => intro _; rfl
    | cons g₀ gs' ih =>
        intro h
        rw [findGroup, if_neg (h g₀ (by simp))]
        exact ih fun g hg => h g (by simp [hg])
  refine ⟨?_, h2, ?_⟩
  · intro gs n
    induction gs with
    | nil => intro g h; simp [findGroup] at h
    | cons g₀ gs' ih =>
        intro g h
        rw [findGroup] at h
        by_cases hn : g₀.name = n
        · rw [if_pos hn] at h
          cases h
          exact ⟨hn, [], gs', rfl, by simp⟩
        · rw [if_neg hn] at h
          obtain ⟨h1, pre, post, hsplit, hpre⟩ := ih g h
          refine ⟨h1, g₀ :: pre, post, by simp [hsplit], ?_⟩
          intro g' hg'
          rcases List.mem_cons.mp hg' with rfl | hmem
          · exact hn
          · exact hpre g' hmem
  · intro cg rest ogs h
    rw [checkFileMatch, h2 ogs cg.name h]

/-- C8 witness: lookup of `B` among `A`,`B`,`B` returns the first `B`
group, and matching a check group `G` against outputs named only `A`,`B`
raises the group-not-found error for `G`. -/
theorem claim_C8_witness :
    (findGroup [⟨"A", [[]]⟩, ⟨"B", [['x']]⟩, ⟨"B", [['y']]⟩] "B" = some ⟨"B", [['x']]⟩ ∧
      (⟨"B", [['x']]⟩ : OutputGroup).name = "B" ∧
      (∃ pre post, ([⟨"A", [[]]⟩, ⟨"B", [['x']]⟩, ⟨"B", [['y']]⟩] : List OutputGroup) =
        pre ++ (⟨"B", [['x']]⟩ : OutputGroup) :: post ∧ ∀ g' ∈ pre, g'.name ≠ "B")) ∧
    ((∀ og ∈ ([⟨"A", [[]]⟩, ⟨"B", [['x']]⟩] : List OutputGroup), og.name ≠ c8group.name) ∧
      checkFileMatch [c8group] [⟨"A", [[]]⟩, ⟨"B", [['x']]⟩] =
        .error (.groupNotFound c8group.name)) := by
  have h1 := claim_C8.1 [⟨"A", [[]]⟩, ⟨"B", [['x']]⟩, ⟨"B", [['y']]⟩] "B" ⟨"B", [['x']]⟩ rfl
  have h3 := claim_C8.2.2 c8group [] [⟨"A", [[]]⟩, ⟨"B", [['x']]⟩] (by decide)
  exact ⟨⟨rfl, h1.1, h1.2⟩, ⟨by decide, h3⟩⟩

/-! ## C9 -/

/-- `_processLine` never reports both a check line and a group header. -/
theorem processLine_shape (pfx line : List Char) :
    (processLine pfx line).1.isSome = true → (processLine pfx line).2 = none := by
  rw [processLine]
  cases extractLine (pfx ++ ('-' :: "START".toList)) line with
  | some s => intro h; simp at h
  | none =>
      cases extractLine pfx line with
      | some s => intro _; rfl
      | none =>
          cases extractLine (pfx ++ ('-' :: "DAG".toList)) line with
          | some s => intro _; rfl
          | none =>
              cases extractLine (pfx ++ ('-' :: "NOT".toList)) line with
              | some s => intro _; rfl
              | none => intro h; simp at h

/-- The stream loop crashes on the first recognised check line while no
group is open. -/
theorem parseStreamGo_outside (pfx : List Char) :
    ∀ (lines : List (List Char)) (i : Nat), i < lines.length →
      (∀ j, j < i → (processLine pfx (stripChars (lines.getD j []))).2 = none) →
      (processLine pfx (stripChars (lines.getD i []))).1.isSome = true →
      parseStreamGo pfx lines [] = .error .lineOutsideGroup := by
  intro lines
  induction lines with
  | nil => intro i hi; simp at hi
  | cons l rest ih =>
      intro i hi h1 h2
      rw [parseStreamGo]
      by_cases hb : (stripChars l).isEmpty
      · have hempty : stripChars l = [] := List.isEmpty_iff.mp hb
        cases i with
        | zero =>
            exfalso
            simp only [List.getD_cons_zero, hempty] at h2
            have : processLine pfx [] = (none, none) := rfl
            rw [this] at h2
            simp at h2
        | succ i' =>
            rw [if_pos hb]
            refine ih i' (by simpa using hi) ?_ (by simpa using h2)
            intro j hj
            simpa using h1 (j + 1) (by omega)
      · rw [if_neg hb]
        cases i with
        | zero =>
            simp only [List.getD_cons_zero] at h2
            rcases hpl : processLine pfx (stripChars l) with ⟨pl1, pl2⟩
            have hsnd : pl2 = none := by
              have := processLine_shape pfx (stripChars l) (by rw [hpl]; rwa [hpl] at h2)
              rwa [hpl] at this
            rw [hpl] at h2
            simp only [Option.isSome] at h2
            cases pl1 with
            | none => simp at h2
            | some p =>
                subst hsnd
                simp [appendToLast]
        | succ i' =>
            have hsnd : (processLine pfx (stripChars l)).2 = none := by
              simpa using h1 0 (by omega)
            rcases hpl : processLine pfx (stripChars l) with ⟨pl1, pl2⟩
            rw [hpl] at hsnd
            subst hsnd
            cases pl1 with
            | none =>
                simp only
                refine ih i' (by simpa using hi) ?_ (by simpa using h2)
                intro j hj
                simpa using h1 (j + 1) (by omega)
            | some p => simp [appendToLast]

/-- C9: during check-file parsing, a line recognised as a check line (bare
prefix, `-DAG`, or `-NOT`) that appears before any `-START` header (all
earlier lines are blank, ignored, or at least not headers) aborts parsing
with the line-outside-group error. -/
theorem claim_C9 (pfx : List Char) (lines : List (List Char)) (i : Nat)
    (hi : i < lines.length)
    (h1 : ∀ j, j < i → (processLine pfx (stripChars (lines.getD j []))).2 = none)
    (h2 : (processLine pfx (stripChars (lines.getD i []))).1.isSome = true) :
    checkFileParse pfx lines = .error .lineOutsideGroup := by
  rw [checkFileParse, parseStreamGo_outside pfx lines i hi h1 h2]

/-- C9 witness: with prefix `CHECK`, the stream whose second line is
`// CHECK: foo` (the first is an ordinary comment, the header only comes
third) fails to parse with the line-outside-group error. -/
theorem claim_C9_witness :
    (1 < ([ "// hello".toList, "// CHECK: foo".toList, "// CHECK-START: G".toList ]).length ∧
      (∀ j, j < 1 → (processLine "CHECK".toList (stripChars
        (([ "// hello".toList, "// CHECK: foo".toList, "// CHECK-START: G".toList ]).getD j []))).2
          = none) ∧
      (processLine "CHECK".toList (stripChars
        (([ "// hello".toList, "// CHECK: foo".toList, "// CHECK-START: G".toList ]).getD 1 []))).1.isSome
          = true) ∧
    checkFileParse "CHECK".toList
      [ "// hello".toList, "// CHECK: foo".toList, "// CHECK-START: G".toList ] =
      .error .lineOutsideGroup := by
  refine ⟨⟨by decide, ?_, by decide⟩, ?_⟩
  · intro j hj
    interval_cases j
    decide
  · exact claim_C9 "CHECK".toList
      [ "// hello".toList, "// CHECK: foo".toList, "// CHECK-START: G".toList ] 1
      (by decide) (by intro j hj; interval_cases j; decide) (by decide)

/-! ## C7 -/

theorem patternHere_none {t : List Char} (h : find2 '{' '{' t = none) :
    patternHere t = none := by
  rw [patternHere.eq_def]
  split
  · simp [find2] at h
  · rfl

theorem patternSearch_none {t : List Char} (h : find2 '{' '{' t = none) :
    patternSearch t = none := by
  induction t with
  | nil => rfl
  | cons x t' ih =>
      rw [patternSearch, patternHere_none h, ih (find2_none_cons h)]
      rfl

theorem varHere_none {t : List Char} (h : find2 '[' '[' t = none) :
    varHere t = none := by
  rw [varHere.eq_def]
  split
  · simp [find2] at h
  · rfl

theorem varSearch_none {t : List Char} (h : find2 '[' '[' t = none) :
    varSearch t = none := by
  induction t with
  | nil => rfl
  | cons x t' ih =>
      rw [varSearch, varHere_none h, ih (find2_none_cons h)]
      rfl

theorem drop_takeWhile_length (p : Char → Bool) (l : List Char) :
    l.drop ((l.takeWhile p).length) = l.dropWhile p := by
  induction l with
  | nil => rfl
  | cons x t ih =>
      by_cases hx : p x
      · rw [List.takeWhile_cons_of_pos hx, List.dropWhile_cons_of_pos hx]
        simpa using ih
      · rw [List.takeWhile_cons_of_neg hx, List.dropWhile_cons_of_neg hx]
        rfl

/-- A chain of pure (`Text`/`Pattern`) elements either fails or returns the
table unchanged. -/
theorem matchParts_pure :
    ∀ {parts : List CheckElement},
      (∀ p ∈ parts, (∃ r, p = .text r) ∨ (∃ r, p = .pattern r)) →
      ∀ (out : List Char) (q : Nat) (vs : VarState),
        matchParts parts out q vs = .ok none ∨ matchParts parts out q vs = .ok (some vs) := by
  intro parts
  induction parts with
  | nil => intro _ out q vs; right; rfl
  | cons part rest ih =>
      intro hpure out q vs
      have hrest := ih fun p hp => hpure p (by simp [hp])
      rcases hpure part (by simp) with ⟨r, rfl⟩ | ⟨r, rfl⟩ <;>
      · rw [matchParts]
        simp only [generatePattern]
        cases hme : r.matchEnd (out.drop q) with
        | none => left; rfl
        | some e => exact hrest out (q + e) vs

/-- When some start position admits a full (pure) chain match and the first
element's pattern matches there, the retry loop succeeds. -/
theorem matchLoop_success {parts : List CheckElement} {π : Regex} {out : List Char}
    {vs : VarState}
    (hpure : ∀ (q : Nat), matchParts parts out q vs = .ok none ∨
      matchParts parts out q vs = .ok (some vs))
    {q₀ : Nat} (hq : matchParts parts out q₀ vs = .ok (some vs))
    (hends : π.ends (out.drop q₀) ≠ []) :
    ∀ (fuel isf : Nat), isf ≤ q₀ → q₀ + 1 - isf ≤ fuel →
      matchLoop parts π out vs isf fuel = some (.ok (some vs)) := by
  intro fuel
  induction fuel with
  | zero => intro isf h1 h2; omega
  | succ fuel ih =>
      intro isf h1 _
      have hdd : (out.drop isf).drop (q₀ - isf) = out.drop q₀ := by
        rw [List.drop_drop, Nat.add_sub_cancel' h1]
      obtain ⟨st, hst, hstle⟩ := searchStart_some_le (m := q₀ - isf) (by rw [hdd]; exact hends)
      rw [matchLoop, hst]
      simp only
      rcases hpure (isf + st) with hnone | hsome
      · rw [hnone]
        simp only
        have hne : isf + st ≠ q₀ := by
          intro hc
          rw [hc, hq] at hnone
          simp at hnone
        exact ih (isf + st + 1) (by omega) (by omega)
      · rw [hsome]

/-- Parsing marker-free text yields a chain of literal and whitespace
elements, and that chain matches the text itself (followed by anything)
wherever the text occurs, leaving the variable table unchanged. -/
theorem parse_literal_chain (v : Variant) :
    ∀ (fuel : Nat) (c : List Char), c.length ≤ fuel →
      find2 '{' '{' c = none → find2 '[' '[' c = none →
      (∀ ch, c.getLast? = some ch → isSpaceChar ch = false) →
      ∃ parts, parseLineF v fuel c = .ok parts ∧
        (c ≠ [] → parts ≠ []) ∧
        (∀ p ∈ parts, (∃ r, p = .text r) ∨ (∃ r, p = .pattern r)) ∧
        (∀ (out : List Char) (q : Nat) (u : List Char) (vs : VarState),
          out.drop q = c ++ u → matchParts parts out q vs = .ok (some vs)) := by
  intro fuel
  induction fuel with
  | zero =>
      intro c hlen _ _ _
      have hc : c = [] := List.length_eq_zero.mp (Nat.le_zero.mp hlen)
      subst hc
      exact ⟨[], rfl, by simp, by simp, fun out q u vs _ => rfl⟩
  | succ fuel ih =>
      intro c hlen hP hV hlast
      cases c with
      | nil => exact ⟨[], rfl, by simp, by simp, fun out q u vs _ => rfl⟩
      | cons ch cs =>
          have hps : patternSearch (ch :: cs) = none := patternSearch_none hP
          have hvs : varSearch (ch :: cs) = none := varSearch_none hV
          by_cases hsp : isSpaceChar ch
          · -- a whitespace run opens the remaining text
            have hws : wsSearch (ch :: cs) =
                some (0, ((ch :: cs).takeWhile isSpaceChar).length) := by
              rw [wsSearch, List.findIdx?_cons, if_pos hsp]
              simp
            have hdec : (ch :: cs).takeWhile isSpaceChar ++
                (ch :: cs).dropWhile isSpaceChar = ch :: cs :=
              List.takeWhile_append_dropWhile isSpaceChar (ch :: cs)
            have hdrop : (ch :: cs).drop (((ch :: cs).takeWhile isSpaceChar).length) =
                (ch :: cs).dropWhile isSpaceChar := drop_takeWhile_length _ _
            have hc'ne : (ch :: cs).dropWhile isSpaceChar ≠ [] := by
              intro hnil
              have hall : ch :: cs = (ch :: cs).takeWhile isSpaceChar := by
                conv_lhs => rw [← hdec]
                rw [hnil, List.append_nil]
              have hgl : (ch :: cs).getLast? =
                  some ((ch :: cs).getLast (List.cons_ne_nil ch cs)) :=
                List.getLast?_eq_getLast_of_ne_nil _
              have hzmem : (ch :: cs).getLast (List.cons_ne_nil ch cs) ∈ ch :: cs :=
                List.getLast_mem _
              have hzsp : isSpaceChar ((ch :: cs).getLast (List.cons_ne_nil ch cs)) = true := by
                apply List.mem_takeWhile_imp (l := ch :: cs) (p := isSpaceChar)
                rw [← hall]
                exact hzmem
              have := hlast _ hgl
              rw [hzsp] at this
              exact Bool.noConfusion this
            obtain ⟨x', cs', hc'⟩ : ∃ x' cs',
                (ch :: cs).dropWhile isSpaceChar = x' :: cs' := by
              cases hd : (ch :: cs).dropWhile isSpaceChar with
              | nil => exact absurd hd hc'ne
              | cons a b => exact ⟨a, b, rfl⟩
            have hx' : isSpaceChar x' = false := dropWhile_head_false hc'
            have hrun : (ch :: cs).takeWhile isSpaceChar = ch :: cs.takeWhile isSpaceChar :=
              List.takeWhile_cons_of_pos hsp
            have hrunlen : 1 ≤ ((ch :: cs).takeWhile isSpaceChar).length := by
              rw [hrun]
              simp
            obtain ⟨parts', hparse', hne', hpure', hchain'⟩ :=
              ih ((ch :: cs).drop (((ch :: cs).takeWhile isSpaceChar).length))
                (by rw [List.length_drop]; simp only [List.length_cons] at hlen ⊢; omega)
                (find2_none_drop hP _) (find2_none_drop hV _)
                (by
                  intro ch₂ hch₂
                  apply hlast
                  rw [hdrop] at hch₂
                  rw [← hdec, List.getLast?_append_of_ne_nil _ hc'ne]
                  exact hch₂)
            refine ⟨CheckElement.pattern wsRegex :: parts', ?_, by simp, ?_, ?_⟩
            · rw [parseLineF]
              simp only [hws, hps, hvs, isMatchAtStart, endOf, decide_eq_true_eq, if_true]
              rw [hparse']
            · intro p hp
              rcases List.mem_cons.mp hp with rfl | hmem
              · exact Or.inr ⟨wsRegex, rfl⟩
              · exact hpure' p hmem
            · intro out q u vs hdq
              have hsplit : out.drop q = (ch :: cs).takeWhile isSpaceChar ++
                  ((ch :: cs).dropWhile isSpaceChar ++ u) := by
                rw [hdq]
                conv_lhs => rw [← hdec]
                rw [List.append_assoc]
              have hme : wsRegex.matchEnd (out.drop q) =
                  some (((ch :: cs).takeWhile isSpaceChar).length) := by
                rw [wsRegex_eq, plusCls_matchEnd, hsplit, hrun]
                simp only [List.cons_append]
                rw [if_pos hsp]
                have hrest : (cs.takeWhile isSpaceChar ++
                    ((ch :: cs).dropWhile isSpaceChar ++ u)).takeWhile isSpaceChar =
                    cs.takeWhile isSpaceChar := by
                  apply takeWhile_run
                  · intro d hd
                    exact List.mem_takeWhile_imp hd
                  · intro x hx
                    rw [hc'] at hx
                    simp only [List.cons_append, List.head?] at hx
                    cases hx
                    exact hx'
                rw [hrest]
                simp [Nat.add_comm]
              rw [matchParts]
              simp only [generatePattern, hme]
              have hnext : out.drop (q + ((ch :: cs).takeWhile isSpaceChar).length) =
                  (ch :: cs).dropWhile isSpaceChar ++ u := by
                rw [← List.drop_drop, hsplit, List.drop_left]
              refine hchain' out _ u vs ?_
              rw [hdrop]
              exact hnext
          · -- the line opens with a plain-text chunk
            have hnws : isMatchAtStart (wsSearch (ch :: cs)) = false := by
              rw [wsSearch, List.findIdx?_cons, if_neg hsp, List.findIdx?_succ]
              cases hfi : cs.findIdx? isSpaceChar with
              | none => rfl
              | some i => rfl
            have hfm : 1 ≤ firstMatchPos [wsSearch (ch :: cs), none, none] (ch :: cs) := by
              have h1 : 1 ≤ (ch :: cs).length := by simp
              cases hw : wsSearch (ch :: cs) with
              | none =>
                  rw [firstMatchPos]
                  simp only [List.map_cons, List.map_nil, listMinN, List.foldl]
                  simp [Nat.min_self]
              | some pr =>
                  obtain ⟨st, e⟩ := pr
                  have hst : 1 ≤ st := by
                    rw [wsSearch, List.findIdx?_cons, if_neg hsp, List.findIdx?_succ] at hw
                    cases hfi : cs.findIdx? isSpaceChar with
                    | none => rw [hfi] at hw; simp at hw
                    | some i =>
                        rw [hfi] at hw
                        simp only [Option.map_some', Option.some.injEq, Prod.mk.injEq] at hw
                        omega
                  rw [firstMatchPos]
                  simp only [List.map_cons, List.map_nil, listMinN, List.foldl]
                  exact Nat.le_min.mpr ⟨Nat.le_min.mpr ⟨hst, h1⟩, h1⟩
            obtain ⟨parts', hparse', hne', hpure', hchain'⟩ :=
              ih ((ch :: cs).drop (firstMatchPos [wsSearch (ch :: cs), none, none] (ch :: cs)))
                (by rw [List.length_drop]; simp only [List.length_cons] at hlen ⊢; omega)
                (find2_none_drop hP _) (find2_none_drop hV _)
                (by
                  intro ch₂ hch₂
                  apply hlast
                  by_cases hdnil : (ch :: cs).drop (firstMatchPos [wsSearch (ch :: cs),
                      none, none] (ch :: cs)) = []
                  · rw [hdnil] at hch₂
                    exact absurd hch₂ (by simp)
                  · conv_lhs => rw [← List.take_append_drop (firstMatchPos [wsSearch (ch :: cs),
                      none, none] (ch :: cs)) (ch :: cs)]
                    rw [List.getLast?_append_of_ne_nil _ hdnil]
                    exact hch₂)
            refine ⟨parseTextElem ((ch :: cs).take (firstMatchPos [wsSearch (ch :: cs),
                none, none] (ch :: cs))) :: parts',
              ?_, by simp, ?_, ?_⟩
            · rw [parseLineF]
              simp only [hps, hvs]
              rw [if_neg (by rw [hnws]; simp), if_neg (by simp [isMatchAtStart]),
                if_neg (by simp [isMatchAtStart]), hparse']
            · intro p hp
              rcases List.mem_cons.mp hp with rfl | hmem
              · exact Or.inl ⟨_, rfl⟩
              · exact hpure' p hmem
            · intro out q u vs hdq
              have hsplit : out.drop q = (ch :: cs).take (firstMatchPos [wsSearch (ch :: cs),
                  none, none] (ch :: cs)) ++
                  ((ch :: cs).drop (firstMatchPos [wsSearch (ch :: cs),
                    none, none] (ch :: cs)) ++ u) := by
                rw [hdq]
                conv_lhs => rw [← List.take_append_drop (firstMatchPos [wsSearch (ch :: cs),
                  none, none] (ch :: cs)) (ch :: cs)]
                rw [List.append_assoc]
              have hme : (Regex.ofLiteral ((ch :: cs).take (firstMatchPos [wsSearch (ch :: cs),
                  none, none] (ch :: cs)))).matchEnd (out.drop q) =
                  some (((ch :: cs).take (firstMatchPos [wsSearch (ch :: cs),
                    none, none] (ch :: cs))).length) := by
                rw [ofLiteral_matchEnd, hsplit, if_pos (List.prefix_append _ _)]
              rw [parseTextElem, matchParts]
              simp only [generatePattern, hme]
              have hnext : out.drop (q + ((ch :: cs).take (firstMatchPos [wsSearch (ch :: cs),
                  none, none] (ch :: cs))).length) =
                  (ch :: cs).drop (firstMatchPos [wsSearch (ch :: cs),
                    none, none] (ch :: cs)) ++ u := by
                rw [← List.drop_drop, hsplit, List.drop_left]
              exact hchain' out _ u vs hnext

/-- C7 counterexample: the empty text contains none of the special markers,
yet compiling it raises the empty-check-line parse error, so the compound
"compile and match" operation does not succeed. -/
theorem claim_C7_counterexample :
    find2 '{' '{' [] = none ∧ find2 '}' '}' [] = none ∧
    find2 '[' '[' [] = none ∧ find2 ']' ']' [] = none ∧
    checkLineOf [] .InOrder = .error .emptyCheckLine :=
  ⟨rfl, rfl, rfl, rfl, rfl⟩

/-- C7 (amended): for every literal text `t` containing none of the special
markers (`{{`, `}}`, `[[`, `]]`) and whose whitespace-stripped content is
nonempty, compiling `t` into a check line succeeds, and matching that line
against a transcript line equal to `t` succeeds and returns the input
variable table unchanged, whatever table it was. -/
theorem claim_C7 (t : List Char)
    (h1 : find2 '{' '{' t = none) (h2 : find2 '}' '}' t = none)
    (h3 : find2 '[' '[' t = none) (h4 : find2 ']' ']' t = none)
    (hne : stripChars t ≠ []) :
    ∃ cl, checkLineOf t .InOrder = .ok cl ∧
      ∀ vs, cl.match t vs = .ok (some vs) := by
  obtain ⟨parts, hparse, hne', hpure, hchain⟩ :=
    parse_literal_chain .InOrder (stripChars t).length (stripChars t) (Nat.le_refl _)
      (stripChars_marker_free h1) (stripChars_marker_free h3)
      (fun ch hch => stripChars_getLast_false hch)
  have hpne : parts ≠ [] := hne' hne
  have hclo : checkLineOf t .InOrder = .ok ⟨.InOrder, parts⟩ := by
    rw [checkLineOf]
    simp only [hparse]
    rw [if_neg ?_]
    intro hc
    exact hpne (List.isEmpty_iff.mp hc)
  refine ⟨⟨.InOrder, parts⟩, hclo, ?_⟩
  intro vs
  obtain ⟨lead, trail, hdec, hlead, htrail⟩ := stripChars_decomp t
  have hdrop : t.drop lead.length = stripChars t ++ trail := by
    conv_lhs => rw [hdec, List.append_assoc]
    exact List.drop_left _ _
  have hq : matchParts parts t lead.length vs = .ok (some vs) :=
    hchain t lead.length trail vs hdrop
  have hpureAll : ∀ q, matchParts parts t q vs = .ok none ∨
      matchParts parts t q vs = .ok (some vs) :=
    fun q => matchParts_pure hpure t q vs
  obtain ⟨p₀, rest, hcons⟩ : ∃ p₀ rest, parts = p₀ :: rest := by
    cases hp : parts with
    | nil => exact absurd hp hpne
    | cons a b => exact ⟨a, b, rfl⟩
  obtain ⟨π, hgen⟩ : ∃ π, generatePattern p₀ vs = .ok π := by
    rcases hpure p₀ (by rw [hcons]; simp) with ⟨r, rfl⟩ | ⟨r, rfl⟩
    · exact ⟨r, rfl⟩
    · exact ⟨r, rfl⟩
  have hends : π.ends (t.drop lead.length) ≠ [] := by
    rw [hcons, matchParts] at hq
    rw [hgen] at hq
    simp only at hq
    cases hme : π.matchEnd (t.drop lead.length) with
    | none => rw [hme] at hq; simp at hq
    | some e =>
        intro hnil
        rw [Regex.matchEnd, hnil] at hme
        simp at hme
  have hq₀le : lead.length ≤ t.length := by
    rw [hdec]
    simp only [List.length_append]
    omega
  have hloop : matchLoop parts π t vs 0 (t.length + 2) = some (.ok (some vs)) := by
    rw [hcons]
    rw [hcons] at hq hpureAll
    exact matchLoop_success hpureAll hq hends (t.length + 2) 0 (Nat.zero_le _) (by omega)
  rw [CheckLine.match, CheckLine.matchF]
  simp only [hcons]
  rw [← hcons]
  simp only [hgen, hloop]

/-- C7 witness: the amended theorem applied to the marker-free text `a b`. -/
theorem claim_C7_witness :
    (find2 '{' '{' "a b".toList = none ∧ find2 '}' '}' "a b".toList = none ∧
      find2 '[' '[' "a b".toList = none ∧ find2 ']' ']' "a b".toList = none ∧
      stripChars "a b".toList ≠ []) ∧
    (∃ cl, checkLineOf "a b".toList .InOrder = .ok cl ∧
      ∀ vs, cl.match "a b".toList vs = .ok (some vs)) :=
  ⟨⟨by decide, by decide, by decide, by decide, by decide⟩,
    claim_C7 "a b".toList (by decide) (by decide) (by decide) (by decide) (by decide)⟩

end Checker
